import Mathlib

/-
Verification of the succinct bit-vector / rank / select / sparse-array library
(src/bitvector.h, src/sparsearray.h, src/utilities.h).

Machine integers are modelled as Nat with explicit truncation (`u32`) at the
points where the C++ code converts to a 32-bit unsigned type or where 32-bit
wrap-around can occur.  Byte buffers are lists of Nat; the well-formedness
predicates below record that every stored byte is < 256.  Vector accesses that
the source performs with std::vector::at are modelled with List.getD / List.set;
every access exercised by the theorems below is in range, where the two agree.
Fallible operations (bounds-checked accessors, file parsing, the select loop)
return Except.
-/

set_option maxHeartbeats 1000000
set_option synthInstance.maxSize 512

namespace BitLib

/-- Error kinds raised by the library (section 7 of the spec): out_of_range,
invalid_argument, the file-magic domain_error, stream failures, and the
select loop's runtime_error.  `outOfFuel` is the sentinel the fuel-indexed
loop model returns when its iteration budget is exhausted. -/
inductive Err where
  | outOfRange
  | invalidArgument
  | corruptFile
  | streamFailure
  | internalFailure
  | outOfFuel
  deriving DecidableEq

/-- Truncation to 32 bits, modelling conversion to the C++ 32-bit unsigned
integer type used throughout the source. -/
def u32 (x : Nat) : Nat := x % 4294967296

/-- Integer ceiling division, from roundDivisionUp in src/bitvector.h.  The
source declares both parameters as 32-bit unsigned, so arguments are truncated
on entry. -/
def roundDivisionUp (num den : Nat) : Nat :=
  u32 num / u32 den + (if u32 num % u32 den == 0 then 0 else 1)

/-- Round up to the next power of two, from roundUpToPowerOf2 in
src/bitvector.h: the Stanford bithack on a 32-bit unsigned integer.  The
initial decrement and the final increment wrap modulo 2^32 exactly as the
C++ unsigned arithmetic does. -/
def roundUpToPowerOf2 (num : Nat) : Nat :=
  let x0 := (u32 num + 4294967295) % 4294967296
  let x1 := x0 ||| (x0 >>> 1)
  let x2 := x1 ||| (x1 >>> 2)
  let x3 := x2 ||| (x2 >>> 4)
  let x4 := x3 ||| (x3 >>> 8)
  let x5 := x4 ||| (x4 >>> 16)
  u32 (x5 + 1)

/-- Fuel-indexed floor of log2; the fuel only bounds the recursion depth and
never runs out when it is at least the argument. -/
def log2fuel : Nat → Nat → Nat
  | 0, _ => 0
  | fuel + 1, n => if 2 ≤ n then log2fuel fuel (n / 2) + 1 else 0

/-- Model of std::log2 on the arguments the source feeds it: the constructor
of RankSupport only applies log2 to roundUpToPowerOf2 of the size, which is 0
or a power of two, and on powers of two the double-precision log2 is exact,
so its floor is the integer base-2 logarithm. -/
def floorLog2 (n : Nat) : Nat := log2fuel n n

/-- The superblock size computed by the RankSupport constructor:
pow(log2(roundUpToPowerOf2(n)), 2) / 2, truncated to an integer. -/
def superblockSizeOf (n : Nat) : Nat := floorLog2 (roundUpToPowerOf2 n) ^ 2 / 2

/-- The block size computed by the RankSupport constructor:
log2(roundUpToPowerOf2(n)) / 2, truncated to an integer. -/
def blockSizeOf (n : Nat) : Nat := floorLog2 (roundUpToPowerOf2 n) / 2

/-- Fuel-indexed helper for popcnt; structural so that it evaluates inside
the kernel. -/
def popcntAux : Nat → Nat → Nat
  | 0, _ => 0
  | fuel + 1, n => if n == 0 then 0 else n % 2 + popcntAux fuel (n / 2)

/-- Model of std::popcount of a machine integer value. -/
def popcnt (n : Nat) : Nat := popcntAux n n

/-- The packed bit store of src/bitvector.h: a bit count and the backing byte
buffer (one Nat per uint8_t). -/
structure BitVector where
  size : Nat
  data : List Nat
  deriving DecidableEq

/-- Bit `index` of a byte buffer: bit index&7 of byte index>>3, exactly the
addressing of BitVector::operator[].  Bytes beyond the buffer read as zero. -/
def bitOf (data : List Nat) (index : Nat) : Bool :=
  Nat.testBit (data.getD (index >>> 3) 0) (index &&& 7)

/-- BitVector::operator[] (and, on in-range indices, BitVector::at). -/
def BitVector.get (bv : BitVector) (index : Nat) : Bool :=
  bitOf bv.data index

/-- BitVector(uint64_t size): allocates ceil(size/8) zero bytes. -/
def BitVector.ofSize (size : Nat) : BitVector :=
  ⟨size, List.replicate (roundDivisionUp size 8) 0⟩

/-- Numeric value of a '0'/'1' character; std::stoul with base 2 maps '1' to
one and '0' to zero (it throws on any other character, which the string
constructor's contract excludes). -/
def digitVal (c : Char) : Nat := if c == '1' then 1 else 0

/-- std::stoul(s, nullptr, 2): most-significant-first base-2 parse. -/
def stoulBase2 (s : List Char) : Nat :=
  s.foldl (fun acc c => 2 * acc + digitVal c) 0

/-- One byte of the string constructor: the source takes a chunk of at most 8
characters, reverses it, parses it base 2, and truncates to uint8_t. -/
def byteOfChunk (chunk : List Char) : Nat := stoulBase2 chunk.reverse % 256

/-- The byte buffer produced by the string constructor's loop: one byte per
chunk of 8 characters (the final chunk may be shorter). -/
def chunkBytes : List Char → List Nat
  | [] => []
  | c0 :: c1 :: c2 :: c3 :: c4 :: c5 :: c6 :: c7 :: rest =>
      byteOfChunk [c0, c1, c2, c3, c4, c5, c6, c7] :: chunkBytes rest
  | l => [byteOfChunk l]

/-- BitVector(std::string const): one bit per character. -/
def BitVector.ofString (s : List Char) : BitVector :=
  ⟨s.length, chunkBytes s⟩

/-- The byte update performed by BitVector::set:
(byte & ~(1 << bitIndex)) | (bit << bitIndex), assigned back to a uint8_t.
The complement is taken in (at least) 32-bit integer arithmetic and the final
assignment truncates to 8 bits, which the mod 256 reproduces. -/
def setByteBit (byte bitIndex : Nat) (bit : Bool) : Nat :=
  ((byte &&& (4294967295 - (1 <<< bitIndex))) ||| ((if bit then 1 else 0) <<< bitIndex)) % 256

/-- BitVector::set on an in-range index (the source's bounds check passes;
out-of-range indices raise in the source and are excluded by every use
below). -/
def BitVector.set (bv : BitVector) (index : Nat) (bit : Bool) : BitVector :=
  ⟨bv.size,
    bv.data.set (index >>> 3) (setByteBit (bv.data.getD (index >>> 3) 0) (index &&& 7) bit)⟩

/-- BitVector::popcount(): the sum of the popcounts of the ceil(size/8) bytes
of the buffer. -/
def BitVector.popcount (bv : BitVector) : Nat :=
  (bv.data.take (roundDivisionUp bv.size 8)).foldl (fun acc byte => acc + popcnt byte) 0

/-- The 32-bit little-endian word read at a byte offset, modelling the
uint32_t load in BitVector::popcount(start, len).  Bytes past the end of the
buffer read as zero; at every call site of the source the shifts discard
exactly the bits such bytes could contribute. -/
def word32At (data : List Nat) (byteIndex : Nat) : Nat :=
  data.getD byteIndex 0 + 256 * data.getD (byteIndex + 1) 0 +
    65536 * data.getD (byteIndex + 2) 0 + 16777216 * data.getD (byteIndex + 3) 0

/-- BitVector::popcount(start, len): load the 32-bit word at byte start>>3,
shift right by start&7, shift left by 32-len (truncating to 32 bits as the
uint32_t arithmetic does), popcount. -/
def BitVector.popcountRange (bv : BitVector) (start len : Nat) : Nat :=
  popcnt ((word32At bv.data (start >>> 3) >>> (start &&& 7) <<< (32 - len)) % 4294967296)

/-- Specification-side naive count: the number of set bits among positions
0, 1, ..., m-1 of the bit function f. -/
def countOnes (f : Nat → Bool) : Nat → Nat
  | 0 => 0
  | m + 1 => countOnes f m + (if f m then 1 else 0)

/-- A sequence of BitVector::set mutations applied in order. -/
def applySets (bv : BitVector) (ops : List (Nat × Bool)) : BitVector :=
  ops.foldl (fun b p => b.set p.1 p.2) bv

/-- The rank index of src/bitvector.h: derived parameters and the two tables.
The underlying BitVector is held by reference in the source, so here every
operation takes the bit vector explicitly.  totalOnes is uninitialised in the
source until buildTables runs; it is zero-initialised here and buildTables
always overwrites it. -/
structure RankSupport where
  superblockSize : Nat
  blockSize : Nat
  superblocks : List Nat
  blocks : List Nat
  totalOnes : Nat
  deriving DecidableEq

/-- The mutable locals of RankSupport::buildTables: the two tables and the
two running sums (both uint32_t in the source). -/
structure BuildState where
  superblocks : List Nat
  blocks : List Nat
  superblockSum : Nat
  blockSum : Nat
  deriving DecidableEq

/-- One iteration of the buildTables loop at bit index i. -/
def buildStep (s b : Nat) (bit : Bool) (i : Nat) (st : BuildState) : BuildState :=
  let st1 := if i % s == 0 then
      { st with superblocks := st.superblocks.set (i / s) st.superblockSum, blockSum := 0 }
    else st
  let st2 := if i % b == 0 then
      { st1 with blocks := st1.blocks.set (i / b) st1.blockSum }
    else st1
  { st2 with superblockSum := u32 (st2.superblockSum + if bit then 1 else 0),
             blockSum := u32 (st2.blockSum + if bit then 1 else 0) }

/-- The buildTables loop, iterated over cnt consecutive bit indices starting
at i. -/
def buildIter (f : Nat → Bool) (s b : Nat) : Nat → Nat → BuildState → BuildState
  | _, 0, st => st
  | i, cnt + 1, st => buildIter f s b (i + 1) cnt (buildStep s b (f i) i st)

/-- RankSupport::buildTables(startingIndex): snap the starting index down to a
superblock boundary, seed the running sums from the existing tables, and walk
the remaining bits. -/
def RankSupport.buildTables (rs : RankSupport) (bv : BitVector) (startingIndex : Nat) :
    RankSupport :=
  let si := startingIndex / rs.superblockSize * rs.superblockSize
  let st0 : BuildState := ⟨rs.superblocks, rs.blocks,
    rs.superblocks.getD (si / rs.superblockSize) 0, rs.blocks.getD (si / rs.blockSize) 0⟩
  let stF := buildIter bv.get rs.superblockSize rs.blockSize si (bv.size - si) st0
  { rs with superblocks := stF.superblocks, blocks := stF.blocks,
            totalOnes := stF.superblockSum }

/-- The RankSupport constructor: compute the two sizes, allocate the
zero-filled tables, and build them from index 0. -/
def mkRankSupport (bv : BitVector) : RankSupport :=
  let rs0 : RankSupport := ⟨superblockSizeOf bv.size, blockSizeOf bv.size,
    List.replicate (roundDivisionUp bv.size (superblockSizeOf bv.size)) 0,
    List.replicate (roundDivisionUp bv.size (blockSizeOf bv.size)) 0, 0⟩
  rs0.buildTables bv 0

/-- RankSupport::rank1 on an in-range index: superblock entry plus block entry
plus the ranged popcount of the enclosing block up to and including i. -/
def RankSupport.rank1 (rs : RankSupport) (bv : BitVector) (i : Nat) : Nat :=
  rs.superblocks.getD (i / rs.superblockSize) 0 + rs.blocks.getD (i / rs.blockSize) 0 +
    bv.popcountRange (i / rs.blockSize * rs.blockSize) (i % rs.blockSize + 1)

/-- RankSupport::rank1 with its bounds check. -/
def RankSupport.rank1E (rs : RankSupport) (bv : BitVector) (i : Nat) : Except Err Nat :=
  if i ≥ bv.size then .error .outOfRange else .ok (rs.rank1 bv i)

/-- The binary-search loop of SelectSupport::select1.  lower, upper and mid
are uint32_t in the source, so the increment, the decrement (which can wrap
at mid = 0) and the midpoint sum are all taken modulo 2^32.  The rank call
inside the loop performs its own bounds check, modelled by the explicit
size test.  The fuel argument bounds the number of iterations; the loop of
the source has no such bound, and the select theorem below shows the budget
passed by select1 is never exhausted. -/
def selectLoop (rs : RankSupport) (bv : BitVector) (i : Nat) :
    Nat → Nat → Nat → Except Err Nat
  | _, _, 0 => .error .outOfFuel
  | lower, upper, fuel + 1 =>
    if lower ≤ upper then
      let mid := u32 (lower + upper) / 2
      if mid ≥ bv.size then .error .outOfRange
      else
        let valueAtMid := rs.rank1 bv mid
        if valueAtMid < i then
          selectLoop rs bv i (u32 (mid + 1)) upper fuel
        else if valueAtMid > i ∨ bv.get mid ≠ true then
          selectLoop rs bv i lower (u32 (mid + 4294967295)) fuel
        else
          .ok mid
    else .error .internalFailure

/-- SelectSupport::select1: check the argument against totalOnes and against
zero, then binary-search positions 0..size. -/
def select1 (rs : RankSupport) (bv : BitVector) (i : Nat) : Except Err Nat :=
  if i > rs.totalOnes then .error .invalidArgument
  else if i == 0 then .error .invalidArgument
  else selectLoop rs bv i 0 (u32 bv.size) (bv.size + 2)

/-- Four little-endian bytes of a 32-bit value, as written by
ofstream::write of a uint32_t. -/
def le32 (v : Nat) : List Nat :=
  [v % 256, v / 256 % 256, v / 65536 % 256, v / 16777216 % 256]

/-- Bulk write of a vector of uint32_t entries: the entries back to back,
each as 4 little-endian bytes, appended to the output stream. -/
def writeVec (out : List Nat) (vec : List Nat) : List Nat :=
  vec.foldl (fun acc v => acc ++ le32 v) out

/-- RankSupport::save: magic, superblockSize, blockSize, the two table
lengths (each a uint32_t), then the raw entries of both tables. -/
def RankSupport.save (rs : RankSupport) : List Nat :=
  let out : List Nat := []
  let out := out ++ le32 4276993775
  let out := out ++ le32 rs.superblockSize
  let out := out ++ le32 rs.blockSize
  let out := out ++ le32 (u32 rs.superblocks.length)
  let out := out ++ le32 (u32 rs.blocks.length)
  let out := writeVec out rs.superblocks
  writeVec out rs.blocks

/-- Read one uint32_t from the stream.  A short read sets the stream's fail
state in the source; here it surfaces as an error. -/
def read32 : List Nat → Except Err (Nat × List Nat)
  | b0 :: b1 :: b2 :: b3 :: rest =>
      .ok (b0 + 256 * b1 + 65536 * b2 + 16777216 * b3, rest)
  | _ => .error .streamFailure

/-- Read count uint32_t entries, as the bulk vector read does. -/
def readEntries : Nat → List Nat → Except Err (List Nat × List Nat)
  | 0, bytes => .ok ([], bytes)
  | count + 1, bytes => do
    let (v, rest) ← read32 bytes
    let (vs, rest2) ← readEntries count rest
    .ok (v :: vs, rest2)

/-- RankSupport::load: check the magic, read the two sizes and the two table
lengths, then the table entries.  The bit-vector reference and totalOnes of
the receiver are left untouched, exactly as in the source. -/
def RankSupport.load (rs : RankSupport) (bytes : List Nat) : Except Err RankSupport := do
  let (magic, r1) ← read32 bytes
  if magic ≠ 4276993775 then .error .corruptFile
  else do
    let (sbSize, r2) ← read32 r1
    let (bSize, r3) ← read32 r2
    let (numSuperblocks, r4) ← read32 r3
    let (numBlocks, r5) ← read32 r4
    let (sbs, r6) ← readEntries numSuperblocks r5
    let (bls, _) ← readEntries numBlocks r6
    .ok { rs with superblockSize := sbSize, blockSize := bSize,
                  superblocks := sbs, blocks := bls }

/-- Eight little-endian bytes of a 64-bit value (the size_t length prefix of
the container serializer in src/utilities.h). -/
def le64 (v : Nat) : List Nat :=
  [v % 256, v / 256 % 256, v / 65536 % 256, v / 16777216 % 256,
   v / 4294967296 % 256, v / 1099511627776 % 256,
   v / 281474976710656 % 256, v / 72057594037927936 % 256]

/-- Modelled from the spec (section 6.2): the claimed RankSupport file layout,
with each table container-encoded in place as an 8-byte length immediately
followed by its 4-byte entries.  This definition follows the specification's
words and exists only to be compared against RankSupport.save. -/
def specSaveBytes (rs : RankSupport) : List Nat :=
  le32 4276993775 ++ le32 rs.superblockSize ++ le32 rs.blockSize ++
    (le64 rs.superblocks.length ++ (rs.superblocks.map le32).flatten) ++
    (le64 rs.blocks.length ++ (rs.blocks.map le32).flatten)

/-- SparseArray of src/sparsearray.h: the owned bit vector, the rank index
over it, and the dense value list. -/
structure SparseArray (V : Type) where
  bitvector : BitVector
  rank : RankSupport
  values : List V
  deriving DecidableEq

/-- SparseArray::create(size): fresh zero bit vector of the given size, rank
support built over it, empty value list. -/
def SparseArray.create (V : Type) (size : Nat) : SparseArray V :=
  let bv := BitVector.ofSize size
  ⟨bv, mkRankSupport bv, []⟩

/-- SparseArray::size(). -/
def SparseArray.size (sa : SparseArray V) : Nat := sa.bitvector.size

/-- SparseArray::numElem(). -/
def SparseArray.numElem (sa : SparseArray V) : Nat := sa.values.length

/-- SparseArray::append with the state threaded explicitly: the result is the
state of the object when the call finishes, paired with the error raised, if
any.  The source first evaluates bitvector_.at(pos) (whose bounds check
raises out_of_range), then raises invalid_argument if the bit is set, and
only after both checks mutates: push the value, set the bit, rebuild the rank
tables from pos. -/
def SparseArray.appendSt (sa : SparseArray V) (elem : V) (pos : Nat) :
    SparseArray V × Option Err :=
  if pos ≥ sa.bitvector.size then (sa, some .outOfRange)
  else if sa.bitvector.get pos then (sa, some .invalidArgument)
  else
    let sa1 := { sa with values := sa.values ++ [elem] }
    let sa2 := { sa1 with bitvector := sa1.bitvector.set pos true }
    let sa3 := { sa2 with rank := sa2.rank.buildTables sa2.bitvector pos }
    (sa3, none)

/-- SparseArray::append as a fallible operation. -/
def SparseArray.append (sa : SparseArray V) (elem : V) (pos : Nat) :
    Except Err (SparseArray V) :=
  match sa.appendSt elem pos with
  | (_, some e) => .error e
  | (sa2, none) => .ok sa2

/-- SparseArray::getAtRank: the boolean result and the out-parameter are
packaged as an Option. -/
def SparseArray.getAtRank (sa : SparseArray V) (rank : Nat) : Option V :=
  if rank < sa.numElem then sa.values.get? rank else none

/-- SparseArray::getAtIndex: bounds-checked bit test, then rank1, then the
value at rank1 - 1 (vector::at on that position raises if it is out of
range). -/
def SparseArray.getAtIndex (sa : SparseArray V) (index : Nat) : Except Err (Option V) :=
  if index ≥ sa.bitvector.size then .error .outOfRange
  else if sa.bitvector.get index then
    match sa.values.get? (sa.rank.rank1 sa.bitvector index - 1) with
    | some v => .ok (some v)
    | none => .error .outOfRange
  else .ok none

/-- SparseArray::numElemAt: rank1 with its bounds check. -/
def SparseArray.numElemAt (sa : SparseArray V) (index : Nat) : Except Err Nat :=
  sa.rank.rank1E sa.bitvector index

deriving instance DecidableEq for Except

/-- The 10-bit vector of the spec's concrete scenario 2, built from the
binary string 0100010001. -/
def demo10 : BitVector :=
  BitVector.ofString ['0', '1', '0', '0', '0', '1', '0', '0', '0', '1']

/-- The sparse-array scenario of the spec (section 8, scenario 3):
create(10), then append foo at 1, bar at 5, baz at 9. -/
def demoSA : Except Err (SparseArray String) := do
  let sa := SparseArray.create String 10
  let sa1 ← sa.append (r"foo") 1
  let sa2 ← sa1.append (r"bar") 5
  sa2.append (r"baz") 9

end BitLib

namespace BitLib

theorem u32_eq_of_lt {x : Nat} (h : x < 4294967296) : u32 x = x := Nat.mod_eq_of_lt h

theorem u32_lt (x : Nat) : u32 x < 4294967296 := Nat.mod_lt _ (by norm_num)

theorem getD_set_self : ∀ (l : List Nat) (i x : Nat), i < l.length →
    (l.set i x).getD i 0 = x
  | [], _, _, h => by simp at h
  | _ :: _, 0, _, _ => rfl
  | _ :: l, i + 1, x, h => by
      simp only [List.set_cons_succ, List.getD_cons_succ]
      exact getD_set_self l i x (by simpa using h)

theorem getD_set_ne : ∀ (l : List Nat) (i j x : Nat), i ≠ j →
    (l.set i x).getD j 0 = l.getD j 0
  | [], _, _, _, _ => by simp
  | _ :: _, 0, 0, _, h => absurd rfl h
  | _ :: _, 0, _ + 1, _, _ => rfl
  | _ :: _, _ + 1, 0, _, _ => rfl
  | _ :: l, i + 1, j + 1, x, h =>
      by simpa using getD_set_ne l i j x (fun hij => h (by omega))

theorem getD_replicate_zero : ∀ (c j : Nat), (List.replicate c 0).getD j 0 = 0
  | 0, _ => by simp
  | _ + 1, 0 => rfl
  | c + 1, j + 1 => by simpa [List.replicate] using getD_replicate_zero c j

theorem getD_lt_of_forall {data : List Nat} (hwf : ∀ x ∈ data, x < 256) (i : Nat) :
    data.getD i 0 < 256 := by
  rcases h : data[i]? with _ | x
  · simp [List.getD_eq_getElem?_getD, h]
  · simpa [List.getD_eq_getElem?_getD, h] using hwf x (List.getElem?_mem h)

theorem countOnes_split (f : Nat → Bool) (a : Nat) :
    ∀ b, countOnes f (a + b) = countOnes f a + countOnes (fun u => f (a + u)) b
  | 0 => by simp [countOnes]
  | b + 1 => by
      show countOnes f (a + b + 1) = _
      simp only [countOnes, countOnes_split f a b]
      omega

theorem countOnes_congr {f g : Nat → Bool} :
    ∀ m, (∀ t, t < m → f t = g t) → countOnes f m = countOnes g m
  | 0, _ => rfl
  | m + 1, h => by
      simp only [countOnes, countOnes_congr m (fun t ht => h t (by omega)),
        h m (by omega)]

theorem countOnes_false : ∀ m, countOnes (fun _ => false) m = 0
  | 0 => rfl
  | m + 1 => by simp [countOnes, countOnes_false m]

theorem countOnes_mono (f : Nat → Bool) {a b : Nat} (h : a ≤ b) :
    countOnes f a ≤ countOnes f b := by
  obtain ⟨c, rfl⟩ := Nat.le.dest h
  rw [countOnes_split]
  omega

theorem countOnes_le (f : Nat → Bool) : ∀ m, countOnes f m ≤ m
  | 0 => Nat.le_refl 0
  | m + 1 => by
      have := countOnes_le f m
      simp only [countOnes]
      split <;> omega

theorem countOnes_head (f : Nat → Bool) (m : Nat) :
    countOnes f (m + 1) = (if f 0 then 1 else 0) + countOnes (fun t => f (t + 1)) m := by
  have h := countOnes_split f 1 m
  rw [Nat.add_comm 1 m] at h
  rw [h]
  have : countOnes f 1 = if f 0 then 1 else 0 := by simp [countOnes]
  rw [this, countOnes_congr m (fun t _ => by rw [Nat.add_comm 1 t])]

theorem popcntAux_zero : ∀ fuel, popcntAux fuel 0 = 0
  | 0 => rfl
  | _ + 1 => rfl

theorem popcntAux_congr : ∀ f1 f2 n, n ≤ f1 → n ≤ f2 → popcntAux f1 n = popcntAux f2 n
  | 0, f2, n, h1, _ => by
      have : n = 0 := Nat.le_zero.mp h1
      subst this
      rw [popcntAux_zero, popcntAux_zero]
  | _ + 1, 0, n, _, h2 => by
      have : n = 0 := Nat.le_zero.mp h2
      subst this
      rw [popcntAux_zero, popcntAux_zero]
  | f1 + 1, f2 + 1, n, h1, h2 => by
      by_cases hn : n = 0
      · subst hn; rw [popcntAux_zero, popcntAux_zero]
      · have hlt : n / 2 < n := Nat.div_lt_self (Nat.pos_of_ne_zero hn) (by norm_num)
        simp only [popcntAux, beq_iff_eq, hn, if_false]
        rw [popcntAux_congr f1 f2 (n / 2) (by omega) (by omega)]

theorem popcnt_rec (n : Nat) (h : 0 < n) : popcnt n = n % 2 + popcnt (n / 2) := by
  rcases n with _ | m
  · omega
  · show popcntAux (m + 1) (m + 1) = _
    simp only [popcntAux, beq_iff_eq, Nat.succ_ne_zero, if_false]
    rw [popcntAux_congr m ((m + 1) / 2) ((m + 1) / 2) (by omega) (Nat.le_refl _)]
    rfl

theorem popcnt_eq_countOnes_testBit :
    ∀ (m n : Nat), n < 2 ^ m → popcnt n = countOnes (fun t => n.testBit t) m
  | 0, n, h => by
      have : n = 0 := by omega
      subst this
      rfl
  | m + 1, n, h => by
      by_cases hn : n = 0
      · subst hn
        rw [countOnes_congr (m + 1) (fun t _ => Nat.zero_testBit t), countOnes_false]
        rfl
      · have h2 : n / 2 < 2 ^ m := by
          have hp : 2 ^ (m + 1) = 2 ^ m * 2 := by ring
          omega
        rw [popcnt_rec n (Nat.pos_of_ne_zero hn), countOnes_head,
          popcnt_eq_countOnes_testBit m (n / 2) h2]
        have hb : (n % 2) = if n.testBit 0 then 1 else 0 := by
          rw [Nat.testBit_zero]
          rcases Nat.mod_two_eq_zero_or_one n with h | h <;> simp [h]
        have hc2 : countOnes (fun t => (n / 2).testBit t) m =
            countOnes (fun t => n.testBit (t + 1)) m :=
          countOnes_congr m (fun t _ => (Nat.testBit_add_one n t).symm)
        omega

theorem shiftRight3_eq (x : Nat) : x >>> 3 = x / 8 := by
  rw [Nat.shiftRight_eq_div_pow]

theorem and7_eq (x : Nat) : x &&& 7 = x % 8 := by
  have := Nat.and_pow_two_sub_one_eq_mod x 3
  norm_num at this
  exact this

theorem testBit_add_mul256 (b m : Nat) (hb : b < 256) (t : Nat) :
    (b + 256 * m).testBit t = if t < 8 then b.testBit t else m.testBit (t - 8) := by
  have h := @Nat.testBit_mul_pow_two_add m b 8 (by norm_num [hb]) t
  rw [show 2 ^ 8 * m + b = b + 256 * m by ring] at h
  exact h

theorem testBit_word32At (data : List Nat) (hwf : ∀ x ∈ data, x < 256) (B t : Nat)
    (ht : t < 32) :
    (word32At data B).testBit t = (data.getD (B + t / 8) 0).testBit (t % 8) := by
  have h0 := getD_lt_of_forall hwf B
  have h1 := getD_lt_of_forall hwf (B + 1)
  have h2 := getD_lt_of_forall hwf (B + 2)
  have hshape : word32At data B =
      data.getD B 0 + 256 * (data.getD (B + 1) 0 + 256 * (data.getD (B + 2) 0 +
        256 * data.getD (B + 3) 0)) := by
    unfold word32At
    ring
  rw [hshape, testBit_add_mul256 _ _ h0, testBit_add_mul256 _ _ h1,
    testBit_add_mul256 _ _ h2]
  by_cases c0 : t < 8
  · rw [if_pos c0]
    congr 2 <;> omega
  · rw [if_neg c0]
    by_cases c1 : t < 16
    · rw [if_pos (by omega)]
      congr 2 <;> omega
    · rw [if_neg (by omega)]
      by_cases c2 : t < 24
      · rw [if_pos (by omega)]
        congr 2 <;> omega
      · rw [if_neg (by omega)]
        congr 2 <;> omega

theorem word32At_lt (data : List Nat) (hwf : ∀ x ∈ data, x < 256) (B : Nat) :
    word32At data B < 4294967296 := by
  have h0 := getD_lt_of_forall hwf B
  have h1 := getD_lt_of_forall hwf (B + 1)
  have h2 := getD_lt_of_forall hwf (B + 2)
  have h3 := getD_lt_of_forall hwf (B + 3)
  unfold word32At
  omega

/-- Characterisation of the ranged popcount: whenever the bit window fits in
the loaded 32-bit word (which holds at every call site of rank1, where the
window starts at a block boundary and is at most blockSize bits long), it
counts exactly the bits start, start+1, ..., start+len-1. -/
theorem popcountRange_eq (bv : BitVector) (hwf : ∀ x ∈ bv.data, x < 256)
    (start len : Nat) (hlen : start % 8 + len ≤ 32) :
    bv.popcountRange start len = countOnes (fun u => bitOf bv.data (start + u)) len := by
  unfold BitVector.popcountRange
  set w := word32At bv.data (start >>> 3) with hw
  have hmod : ∀ x : Nat, x % 4294967296 = x % 2 ^ 32 := by intro x; norm_num
  have hlt : (w >>> (start &&& 7) <<< (32 - len)) % 4294967296 < 2 ^ 32 := by
    rw [hmod]
    exact Nat.mod_lt _ (by norm_num)
  rw [popcnt_eq_countOnes_testBit 32 _ hlt]
  have hbit : ∀ t, t < 32 →
      ((w >>> (start &&& 7) <<< (32 - len)) % 4294967296).testBit t =
        (if 32 - len ≤ t then w.testBit (start % 8 + (t - (32 - len))) else false) := by
    intro t ht
    rw [hmod, Nat.testBit_mod_two_pow, Nat.testBit_shiftLeft]
    by_cases hc : 32 - len ≤ t
    · rw [if_pos hc]
      simp only [ht, hc, decide_True, Bool.true_and, ge_iff_le]
      rw [Nat.testBit_shiftRight, and7_eq]
    · rw [if_neg hc]
      simp only [ge_iff_le, hc, decide_False, Bool.false_and, Bool.and_false]
  rw [countOnes_congr 32 (fun t ht => hbit t ht)]
  obtain ⟨c, hc⟩ : ∃ c, c = 32 - len := ⟨32 - len, rfl⟩
  rw [← hc, show (32 : Nat) = c + len by omega, countOnes_split]
  have hfirst : countOnes
      (fun t => if c ≤ t then w.testBit (start % 8 + (t - c)) else false) c = 0 := by
    rw [countOnes_congr c (fun t ht => by rw [if_neg (by omega)]), countOnes_false]
  rw [hfirst, Nat.zero_add]
  apply countOnes_congr
  intro u hu
  rw [if_pos (by omega)]
  have harg : c + u - c = u := by omega
  rw [harg]
  have hb2 : w.testBit (start % 8 + u) = bitOf bv.data (start + u) := by
    have hidx : start >>> 3 + (start % 8 + u) / 8 = (start + u) >>> 3 := by
      simp only [shiftRight3_eq]
      omega
    have hmod8 : (start % 8 + u) % 8 = (start + u) &&& 7 := by
      rw [and7_eq]
      omega
    rw [hw, testBit_word32At bv.data hwf (start >>> 3) (start % 8 + u) (by omega),
      hidx, hmod8]
    rfl
  rw [hb2]

end BitLib

namespace BitLib

theorem div_mul_eq_of_mod_zero {m s : Nat} (h : m % s = 0) : m / s * s = m :=
  Nat.div_mul_cancel (Nat.dvd_of_mod_eq_zero h)

theorem pred_div_eq {m s : Nat} (hs : 0 < s) (h : m % s ≠ 0) : (m - 1) / s = m / s := by
  have hd := Nat.div_add_mod m s
  have hmod : m % s < s := Nat.mod_lt _ hs
  have hm1 : m - 1 = s * (m / s) + (m % s - 1) := by omega
  rw [hm1, Nat.mul_add_div hs,
    Nat.div_eq_of_lt (show m % s - 1 < s by omega), Nat.add_zero]

theorem lt_div_of_mul_lt {k q s : Nat} (h : k * s < q * s) : k < q :=
  Nat.lt_of_mul_lt_mul_right h

theorem le_mul_div {k m s : Nat} (hs : 0 < s) (h : k * s ≤ m) : k ≤ m / s :=
  (Nat.le_div_iff_mul_le hs).mpr h

theorem roundDivisionUp_eq {n s : Nat} (hn : n < 4294967296) (hs32 : s < 4294967296) :
    roundDivisionUp n s = n / s + (if n % s = 0 then 0 else 1) := by
  unfold roundDivisionUp u32
  rw [Nat.mod_eq_of_lt hn, Nat.mod_eq_of_lt hs32]
  by_cases h : n % s = 0
  · rw [if_pos h, if_pos (by simpa using h)]
  · rw [if_neg h, if_neg (by simpa using h)]

theorem le_mul_roundDivisionUp {n s : Nat} (hs : 0 < s) (hn : n < 4294967296)
    (hs32 : s < 4294967296) : n ≤ roundDivisionUp n s * s := by
  rw [roundDivisionUp_eq hn hs32]
  have hd := Nat.div_add_mod n s
  by_cases h : n % s = 0
  · rw [if_pos h, Nat.add_zero]
    have := div_mul_eq_of_mod_zero h
    omega
  · rw [if_neg h, Nat.add_mul, Nat.one_mul]
    have hmod : n % s < s := Nat.mod_lt _ hs
    have hcomm : n / s * s = s * (n / s) := Nat.mul_comm _ _
    omega

theorem lt_roundDivisionUp {n s k : Nat} (hs : 0 < s) (hn : n < 4294967296)
    (hs32 : s < 4294967296) (h : k * s < n) : k < roundDivisionUp n s := by
  by_contra hc
  push_neg at hc
  have h1 : roundDivisionUp n s * s ≤ k * s := Nat.mul_le_mul_right s hc
  have h2 := le_mul_roundDivisionUp hs hn hs32
  omega

/-- One iteration of the buildTables loop, started from index 0, preserves
the loop invariant: after processing bits 0..m-1 the running superblock sum
is the prefix count, the running block sum counts from the last superblock
boundary, and every table entry whose boundary has been passed holds its
final value.  Processing index m extends all clauses from m to m + 1. -/
theorem buildStep_inv (f : Nat → Bool) (s b : Nat) (hs : 0 < s) (hb : 0 < b)
    (n L1 L2 : Nat) (hn32 : n < 4294967296)
    (hL1 : ∀ k, k * s < n → k < L1) (hL2 : ∀ j, j * b < n → j < L2)
    (m : Nat) (hm : m < n) (st : BuildState)
    (e1 : st.superblocks.length = L1) (e2 : st.blocks.length = L2)
    (e3 : st.superblockSum = countOnes f m)
    (e4 : st.blockSum = countOnes f m -
      countOnes f (if m = 0 then 0 else (m - 1) / s * s))
    (e5 : ∀ k, k * s < m → st.superblocks.getD k 0 = countOnes f (k * s))
    (e6 : ∀ j, j * b < m → st.blocks.getD j 0 =
      countOnes f (j * b) - countOnes f (j * b / s * s)) :
    (buildStep s b (f m) m st).superblocks.length = L1 ∧
    (buildStep s b (f m) m st).blocks.length = L2 ∧
    (buildStep s b (f m) m st).superblockSum = countOnes f (m + 1) ∧
    (buildStep s b (f m) m st).blockSum = countOnes f (m + 1) -
      countOnes f (m / s * s) ∧
    (∀ k, k * s < m + 1 → (buildStep s b (f m) m st).superblocks.getD k 0 =
      countOnes f (k * s)) ∧
    (∀ j, j * b < m + 1 → (buildStep s b (f m) m st).blocks.getD j 0 =
      countOnes f (j * b) - countOnes f (j * b / s * s)) := by
  have hadd : (if f m then 1 else 0) ≤ 1 := by split <;> omega
  have hcnt_le : countOnes f m ≤ m := countOnes_le f m
  have hsucc : countOnes f (m + 1) = countOnes f m + (if f m then 1 else 0) := rfl
  by_cases hms : m % s = 0 <;> by_cases hmb : m % b = 0
  · -- superblock boundary and block boundary
    have hfix : m / s * s = m := div_mul_eq_of_mod_zero hms
    have hfixb : m / b * b = m := div_mul_eq_of_mod_zero hmb
    have hred : buildStep s b (f m) m st =
        ⟨st.superblocks.set (m / s) st.superblockSum, st.blocks.set (m / b) 0,
          u32 (st.superblockSum + if f m then 1 else 0),
          u32 (0 + if f m then 1 else 0)⟩ := by
      simp only [buildStep, beq_iff_eq]
      rw [if_pos hms, if_pos hmb]
    rw [hred]
    refine ⟨by simpa using e1, by simpa using e2, ?_, ?_, ?_, ?_⟩
    · show u32 (st.superblockSum + _) = _
      rw [e3, u32_eq_of_lt (by omega)]
      omega
    · show u32 (0 + _) = _
      rw [u32_eq_of_lt (by omega), hfix]
      omega
    · intro k hk
      show (st.superblocks.set (m / s) st.superblockSum).getD k 0 = _
      by_cases hkm : k = m / s
      · subst hkm
        rw [getD_set_self _ _ _ (by rw [e1]; exact hL1 _ (by rw [hfix]; exact hm)),
          e3, hfix]
      · rw [getD_set_ne _ _ _ _ (fun h => hkm h.symm)]
        apply e5
        rcases Nat.lt_or_ge (k * s) m with h | h
        · exact h
        · exfalso
          have hksm : k * s = m := by omega
          exact hkm (by rw [← hksm, Nat.mul_div_cancel _ hs])
    · intro j hj
      show (st.blocks.set (m / b) 0).getD j 0 = _
      by_cases hjm : j = m / b
      · subst hjm
        rw [getD_set_self _ _ _ (by rw [e2]; exact hL2 _ (by rw [hfixb]; exact hm)),
          hfixb, hfix]
        omega
      · rw [getD_set_ne _ _ _ _ (fun h => hjm h.symm)]
        apply e6
        rcases Nat.lt_or_ge (j * b) m with h | h
        · exact h
        · exfalso
          have hjbm : j * b = m := by omega
          exact hjm (by rw [← hjbm, Nat.mul_div_cancel _ hb])
  · -- superblock boundary only
    have hfix : m / s * s = m := div_mul_eq_of_mod_zero hms
    have hred : buildStep s b (f m) m st =
        ⟨st.superblocks.set (m / s) st.superblockSum, st.blocks,
          u32 (st.superblockSum + if f m then 1 else 0),
          u32 (0 + if f m then 1 else 0)⟩ := by
      simp only [buildStep, beq_iff_eq]
      rw [if_pos hms, if_neg hmb]
    rw [hred]
    refine ⟨by simpa using e1, e2, ?_, ?_, ?_, ?_⟩
    · show u32 (st.superblockSum + _) = _
      rw [e3, u32_eq_of_lt (by omega)]
      omega
    · show u32 (0 + _) = _
      rw [u32_eq_of_lt (by omega), hfix]
      omega
    · intro k hk
      show (st.superblocks.set (m / s) st.superblockSum).getD k 0 = _
      by_cases hkm : k = m / s
      · subst hkm
        rw [getD_set_self _ _ _ (by rw [e1]; exact hL1 _ (by rw [hfix]; exact hm)),
          e3, hfix]
      · rw [getD_set_ne _ _ _ _ (fun h => hkm h.symm)]
        apply e5
        rcases Nat.lt_or_ge (k * s) m with h | h
        · exact h
        · exfalso
          have hksm : k * s = m := by omega
          exact hkm (by rw [← hksm, Nat.mul_div_cancel _ hs])
    · intro j hj
      show st.blocks.getD j 0 = _
      apply e6
      rcases Nat.lt_or_ge (j * b) m with h | h
      · exact h
      · exfalso
        have hjbm : j * b = m := by omega
        exact hmb (by rw [← hjbm, Nat.mul_mod_left])
  · -- block boundary only
    have hm0 : m ≠ 0 := by
      intro h
      subst h
      exact hms (Nat.zero_mod s)
    have hpred : (m - 1) / s = m / s := pred_div_eq hs hms
    have he4 : st.blockSum = countOnes f m - countOnes f (m / s * s) := by
      rw [e4, if_neg hm0, hpred]
    have hms_le : m / s * s ≤ m := Nat.div_mul_le_self m s
    have hmono : countOnes f (m / s * s) ≤ countOnes f m := countOnes_mono f hms_le
    have hbnd : st.blockSum ≤ countOnes f m := by omega
    have hfixb : m / b * b = m := div_mul_eq_of_mod_zero hmb
    have hred : buildStep s b (f m) m st =
        ⟨st.superblocks, st.blocks.set (m / b) st.blockSum,
          u32 (st.superblockSum + if f m then 1 else 0),
          u32 (st.blockSum + if f m then 1 else 0)⟩ := by
      simp only [buildStep, beq_iff_eq]
      rw [if_neg hms, if_pos hmb]
    rw [hred]
    refine ⟨e1, by simpa using e2, ?_, ?_, ?_, ?_⟩
    · show u32 (st.superblockSum + _) = _
      rw [e3, u32_eq_of_lt (by omega)]
      omega
    · show u32 (st.blockSum + _) = _
      rw [u32_eq_of_lt (by omega), he4]
      omega
    · intro k hk
      show st.superblocks.getD k 0 = _
      apply e5
      rcases Nat.lt_or_ge (k * s) m with h | h
      · exact h
      · exfalso
        have hksm : k * s = m := by omega
        exact hms (by rw [← hksm, Nat.mul_mod_left])
    · intro j hj
      show (st.blocks.set (m / b) st.blockSum).getD j 0 = _
      by_cases hjm : j = m / b
      · subst hjm
        rw [getD_set_self _ _ _ (by rw [e2]; exact hL2 _ (by rw [hfixb]; exact hm)),
          hfixb, he4]
      · rw [getD_set_ne _ _ _ _ (fun h => hjm h.symm)]
        apply e6
        rcases Nat.lt_or_ge (j * b) m with h | h
        · exact h
        · exfalso
          have hjbm : j * b = m := by omega
          exact hjm (by rw [← hjbm, Nat.mul_div_cancel _ hb])
  · -- interior index
    have hm0 : m ≠ 0 := by
      intro h
      subst h
      exact hms (Nat.zero_mod s)
    have hpred : (m - 1) / s = m / s := pred_div_eq hs hms
    have he4 : st.blockSum = countOnes f m - countOnes f (m / s * s) := by
      rw [e4, if_neg hm0, hpred]
    have hms_le : m / s * s ≤ m := Nat.div_mul_le_self m s
    have hmono : countOnes f (m / s * s) ≤ countOnes f m := countOnes_mono f hms_le
    have hbnd : st.blockSum ≤ countOnes f m := by omega
    have hred : buildStep s b (f m) m st =
        ⟨st.superblocks, st.blocks,
          u32 (st.superblockSum + if f m then 1 else 0),
          u32 (st.blockSum + if f m then 1 else 0)⟩ := by
      simp only [buildStep, beq_iff_eq]
      rw [if_neg hms, if_neg hmb]
    rw [hred]
    refine ⟨e1, e2, ?_, ?_, ?_, ?_⟩
    · show u32 (st.superblockSum + _) = _
      rw [e3, u32_eq_of_lt (by omega)]
      omega
    · show u32 (st.blockSum + _) = _
      rw [u32_eq_of_lt (by omega), he4]
      omega
    · intro k hk
      show st.superblocks.getD k 0 = _
      apply e5
      rcases Nat.lt_or_ge (k * s) m with h | h
      · exact h
      · exfalso
        have hksm : k * s = m := by omega
        exact hms (by rw [← hksm, Nat.mul_mod_left])
    · intro j hj
      show st.blocks.getD j 0 = _
      apply e6
      rcases Nat.lt_or_ge (j * b) m with h | h
      · exact h
      · exfalso
        have hjbm : j * b = m := by omega
        exact hmb (by rw [← hjbm, Nat.mul_mod_left])

/-- The buildTables loop invariant propagated over the whole walk: starting
from a state satisfying the invariant at index m with c = n - m steps left,
the final state has the prefix-count tables fully filled in and the running
superblock sum equal to the total popcount. -/
theorem buildIter_inv (f : Nat → Bool) (s b : Nat) (hs : 0 < s) (hb : 0 < b)
    (n L1 L2 : Nat) (hn32 : n < 4294967296)
    (hL1 : ∀ k, k * s < n → k < L1) (hL2 : ∀ j, j * b < n → j < L2) :
    ∀ (c m : Nat) (st : BuildState), m + c = n →
      st.superblocks.length = L1 → st.blocks.length = L2 →
      st.superblockSum = countOnes f m →
      st.blockSum = countOnes f m -
        countOnes f (if m = 0 then 0 else (m - 1) / s * s) →
      (∀ k, k * s < m → st.superblocks.getD k 0 = countOnes f (k * s)) →
      (∀ j, j * b < m → st.blocks.getD j 0 =
        countOnes f (j * b) - countOnes f (j * b / s * s)) →
      (buildIter f s b m c st).superblocks.length = L1 ∧
      (buildIter f s b m c st).blocks.length = L2 ∧
      (buildIter f s b m c st).superblockSum = countOnes f n ∧
      (∀ k, k * s < n →
        (buildIter f s b m c st).superblocks.getD k 0 = countOnes f (k * s)) ∧
      (∀ j, j * b < n → (buildIter f s b m c st).blocks.getD j 0 =
        countOnes f (j * b) - countOnes f (j * b / s * s))
  | 0, m, st, hmn, e1, e2, e3, _, e5, e6 => by
      have hmeq : m = n := by omega
      subst hmeq
      exact ⟨e1, e2, e3, e5, e6⟩
  | c + 1, m, st, hmn, e1, e2, e3, e4, e5, e6 => by
      have hm : m < n := by omega
      obtain ⟨f1, f2, f3, f4, f5, f6⟩ :=
        buildStep_inv f s b hs hb n L1 L2 hn32 hL1 hL2 m hm st e1 e2 e3 e4 e5 e6
      have f4x : (buildStep s b (f m) m st).blockSum = countOnes f (m + 1) -
          countOnes f (if m + 1 = 0 then 0 else (m + 1 - 1) / s * s) := by
        simpa using f4
      exact buildIter_inv f s b hs hb n L1 L2 hn32 hL1 hL2 c (m + 1)
        (buildStep s b (f m) m st) (by omega) f1 f2 f3 f4x f5 f6

theorem log2fuel_le : ∀ (fuel x m : Nat), x < 2 ^ (m + 1) → log2fuel fuel x ≤ m
  | 0, _, m, _ => Nat.zero_le m
  | fuel + 1, x, m, h => by
      simp only [log2fuel]
      split
      · next h2 =>
        have hp : 2 ^ (m + 1) = 2 * 2 ^ m := by ring
        have hm1 : 1 ≤ m := by
          rcases m with _ | m0
          · simp at h
            omega
          · omega
        have hx2 : x / 2 < 2 ^ (m - 1 + 1) := by
          have : m - 1 + 1 = m := by omega
          rw [this]
          omega
        have := log2fuel_le fuel (x / 2) (m - 1) hx2
        omega
      · exact Nat.zero_le m

theorem log2fuel_ge : ∀ (fuel x k : Nat), x ≤ fuel → 2 ^ k ≤ x → k ≤ log2fuel fuel x
  | 0, x, k, hf, hk => by
      have h1 : 1 ≤ 2 ^ k := Nat.one_le_two_pow
      omega
  | fuel + 1, x, k, hf, hk => by
      rcases k with _ | k0
      · exact Nat.zero_le _
      · have hp : 2 ^ (k0 + 1) = 2 * 2 ^ k0 := by ring
        have h1 : 1 ≤ 2 ^ k0 := Nat.one_le_two_pow
        have hx2 : 2 ≤ x := by omega
        simp only [log2fuel, if_pos hx2]
        have hrec := log2fuel_ge fuel (x / 2) k0 (by omega) (by omega)
        omega

theorem floorLog2_le {x m : Nat} (h : x < 2 ^ (m + 1)) : floorLog2 x ≤ m :=
  log2fuel_le x x m h

theorem floorLog2_ge {x k : Nat} (h : 2 ^ k ≤ x) : k ≤ floorLog2 x :=
  log2fuel_ge x x k (Nat.le_refl x) h

theorem roundUpToPowerOf2_lt (num : Nat) : roundUpToPowerOf2 num < 4294967296 := by
  simp only [roundUpToPowerOf2]
  exact u32_lt _

theorem floorLog2_roundUp_le (n : Nat) : floorLog2 (roundUpToPowerOf2 n) ≤ 31 := by
  apply floorLog2_le
  have := roundUpToPowerOf2_lt n
  norm_num
  omega

theorem blockSizeOf_le (n : Nat) : blockSizeOf n ≤ 15 := by
  have := floorLog2_roundUp_le n
  unfold blockSizeOf
  omega

theorem superblockSizeOf_le (n : Nat) : superblockSizeOf n ≤ 480 := by
  have h := floorLog2_roundUp_le n
  have h2 : floorLog2 (roundUpToPowerOf2 n) ^ 2 ≤ 31 ^ 2 :=
    Nat.pow_le_pow_left h 2
  unfold superblockSizeOf
  omega

/-- When the derived block size is nonzero, the superblock size is nonzero as
well and is an exact multiple of the block size (with K the integer log, the
sizes are K^2/2 and K/2, and K^2/2 = (K/2) * (K + K mod 2)). -/
theorem blockSize_pos_facts (n : Nat) (hb : 0 < blockSizeOf n) :
    0 < superblockSizeOf n ∧ blockSizeOf n ∣ superblockSizeOf n := by
  have hbv : blockSizeOf n = floorLog2 (roundUpToPowerOf2 n) / 2 := rfl
  have hsv : superblockSizeOf n = floorLog2 (roundUpToPowerOf2 n) ^ 2 / 2 := rfl
  generalize hK : floorLog2 (roundUpToPowerOf2 n) = K at hbv hsv
  have hK2 : 2 ≤ K := by omega
  constructor
  · have h4 : 2 ^ 2 ≤ K ^ 2 := Nat.pow_le_pow_left hK2 2
    have h4' : (2 : Nat) ^ 2 = 4 := by norm_num
    omega
  · rcases Nat.mod_two_eq_zero_or_one K with h2 | h2
    · have ht : K = 2 * (K / 2) := by omega
      obtain ⟨t, htt⟩ : ∃ t, K = 2 * t := ⟨K / 2, ht⟩
      have hsq : K ^ 2 = 4 * (t * t) := by rw [htt]; ring
      have hsv2 : superblockSizeOf n = 2 * (t * t) := by omega
      have hbv2 : blockSizeOf n = t := by omega
      rw [hsv2, hbv2]
      exact ⟨2 * t, by ring⟩
    · have ht : K = 2 * (K / 2) + 1 := by omega
      obtain ⟨t, htt⟩ : ∃ t, K = 2 * t + 1 := ⟨K / 2, ht⟩
      have hsq : K ^ 2 = 4 * (t * t) + 4 * t + 1 := by rw [htt]; ring
      have hsv2 : superblockSizeOf n = 2 * (t * t) + 2 * t := by omega
      have hbv2 : blockSizeOf n = t := by omega
      rw [hsv2, hbv2]
      exact ⟨2 * t + 2, by ring⟩

theorem mkRankSupport_sizes (bv : BitVector) :
    (mkRankSupport bv).superblockSize = superblockSizeOf bv.size ∧
    (mkRankSupport bv).blockSize = blockSizeOf bv.size :=
  ⟨rfl, rfl⟩

/-- The tables produced by the RankSupport constructor: each superblock entry
whose boundary lies inside the vector holds the prefix count up to its
boundary, each block entry holds the count from its enclosing superblock
boundary to its own boundary, and totalOnes is the full popcount. -/
theorem mkRankSupport_tables (bv : BitVector) (hb : 0 < blockSizeOf bv.size)
    (hn32 : bv.size < 4294967296) :
    (∀ k, k * superblockSizeOf bv.size < bv.size →
      (mkRankSupport bv).superblocks.getD k 0 =
        countOnes bv.get (k * superblockSizeOf bv.size)) ∧
    (∀ j, j * blockSizeOf bv.size < bv.size →
      (mkRankSupport bv).blocks.getD j 0 =
        countOnes bv.get (j * blockSizeOf bv.size) -
          countOnes bv.get (j * blockSizeOf bv.size / superblockSizeOf bv.size *
            superblockSizeOf bv.size)) ∧
    (mkRankSupport bv).totalOnes = countOnes bv.get bv.size := by
  obtain ⟨hs_pos, _⟩ := blockSize_pos_facts bv.size hb
  have hs32 : superblockSizeOf bv.size < 4294967296 := by
    have := superblockSizeOf_le bv.size
    omega
  have hb32 : blockSizeOf bv.size < 4294967296 := by
    have := blockSizeOf_le bv.size
    omega
  have hL1 : ∀ k, k * superblockSizeOf bv.size < bv.size →
      k < roundDivisionUp bv.size (superblockSizeOf bv.size) :=
    fun k hk => lt_roundDivisionUp hs_pos hn32 hs32 hk
  have hL2 : ∀ j, j * blockSizeOf bv.size < bv.size →
      j < roundDivisionUp bv.size (blockSizeOf bv.size) :=
    fun j hj => lt_roundDivisionUp hb hn32 hb32 hj
  have key := buildIter_inv bv.get (superblockSizeOf bv.size) (blockSizeOf bv.size)
    hs_pos hb bv.size
    (roundDivisionUp bv.size (superblockSizeOf bv.size))
    (roundDivisionUp bv.size (blockSizeOf bv.size))
    hn32 hL1 hL2 bv.size 0
    ⟨List.replicate (roundDivisionUp bv.size (superblockSizeOf bv.size)) 0,
      List.replicate (roundDivisionUp bv.size (blockSizeOf bv.size)) 0, 0, 0⟩
    (by omega) (List.length_replicate _ _) (List.length_replicate _ _) rfl
    (by simp [countOnes]) (fun k hk => by omega) (fun j hj => by omega)
  have hmk : mkRankSupport bv =
      { superblockSize := superblockSizeOf bv.size,
        blockSize := blockSizeOf bv.size,
        superblocks := (buildIter bv.get (superblockSizeOf bv.size)
          (blockSizeOf bv.size) 0 bv.size
          ⟨List.replicate (roundDivisionUp bv.size (superblockSizeOf bv.size)) 0,
            List.replicate (roundDivisionUp bv.size (blockSizeOf bv.size)) 0,
            0, 0⟩).superblocks,
        blocks := (buildIter bv.get (superblockSizeOf bv.size)
          (blockSizeOf bv.size) 0 bv.size
          ⟨List.replicate (roundDivisionUp bv.size (superblockSizeOf bv.size)) 0,
            List.replicate (roundDivisionUp bv.size (blockSizeOf bv.size)) 0,
            0, 0⟩).blocks,
        totalOnes := (buildIter bv.get (superblockSizeOf bv.size)
          (blockSizeOf bv.size) 0 bv.size
          ⟨List.replicate (roundDivisionUp bv.size (superblockSizeOf bv.size)) 0,
            List.replicate (roundDivisionUp bv.size (blockSizeOf bv.size)) 0,
            0, 0⟩).superblockSum } := by
    unfold mkRankSupport RankSupport.buildTables
    simp only [Nat.zero_div, Nat.zero_mul, Nat.sub_zero, getD_replicate_zero]
  rw [hmk]
  exact ⟨key.2.2.2.1, key.2.2.2.2, key.2.2.1⟩

/-- Rank agrees with the naive count: rank1 of the freshly built RankSupport
on any in-range index i is the number of set bits among positions 0..i,
inclusive of i. -/
theorem rank1_mk_eq (bv : BitVector) (hwf : ∀ x ∈ bv.data, x < 256)
    (hb : 0 < blockSizeOf bv.size) (hn32 : bv.size < 4294967296)
    (i : Nat) (hi : i < bv.size) :
    (mkRankSupport bv).rank1 bv i = countOnes bv.get (i + 1) := by
  obtain ⟨hs_pos, hdvd⟩ := blockSize_pos_facts bv.size hb
  obtain ⟨htab_sb, htab_bl, _⟩ := mkRankSupport_tables bv hb hn32
  have hble : blockSizeOf bv.size ≤ 15 := blockSizeOf_le bv.size
  unfold RankSupport.rank1
  rw [(mkRankSupport_sizes bv).1, (mkRankSupport_sizes bv).2]
  have hks_le : i / superblockSizeOf bv.size * superblockSizeOf bv.size ≤ i :=
    Nat.div_mul_le_self i _
  have hjb_le : i / blockSizeOf bv.size * blockSizeOf bv.size ≤ i :=
    Nat.div_mul_le_self i _
  rw [htab_sb (i / superblockSizeOf bv.size) (by omega),
    htab_bl (i / blockSizeOf bv.size) (by omega)]
  have hmod_lt : i % blockSizeOf bv.size < blockSizeOf bv.size := Nat.mod_lt _ hb
  rw [popcountRange_eq bv hwf _ _ (by omega)]
  -- the tail popcount is the count over the half-open range from the block
  -- boundary to i inclusive
  have hdm := Nat.div_add_mod i (blockSizeOf bv.size)
  have hcm : blockSizeOf bv.size * (i / blockSizeOf bv.size) =
      i / blockSizeOf bv.size * blockSizeOf bv.size := Nat.mul_comm _ _
  have hsplit := countOnes_split bv.get
    (i / blockSizeOf bv.size * blockSizeOf bv.size) (i % blockSizeOf bv.size + 1)
  have hend : i / blockSizeOf bv.size * blockSizeOf bv.size +
      (i % blockSizeOf bv.size + 1) = i + 1 := by omega
  rw [hend] at hsplit
  have hcongr : countOnes
      (fun u => bitOf bv.data (i / blockSizeOf bv.size * blockSizeOf bv.size + u))
      (i % blockSizeOf bv.size + 1) =
      countOnes
        (fun u => bv.get (i / blockSizeOf bv.size * blockSizeOf bv.size + u))
        (i % blockSizeOf bv.size + 1) := rfl
  -- the block boundary lies in the same superblock as i
  obtain ⟨q, hq⟩ := hdvd
  have hks_mul : i / superblockSizeOf bv.size * superblockSizeOf bv.size =
      blockSizeOf bv.size * (i / superblockSizeOf bv.size * q) := by
    rw [hq]
    ring
  have hks_le_jb : i / superblockSizeOf bv.size * superblockSizeOf bv.size ≤
      i / blockSizeOf bv.size * blockSizeOf bv.size := by
    have h1 : i / superblockSizeOf bv.size * q ≤ i / blockSizeOf bv.size := by
      apply le_mul_div hb
      rw [Nat.mul_comm, ← hks_mul]
      exact hks_le
    calc i / superblockSizeOf bv.size * superblockSizeOf bv.size
        = i / superblockSizeOf bv.size * q * blockSizeOf bv.size := by
          rw [hks_mul]; ring
      _ ≤ i / blockSizeOf bv.size * blockSizeOf bv.size :=
          Nat.mul_le_mul_right _ h1
  have hjbs : i / blockSizeOf bv.size * blockSizeOf bv.size /
      superblockSizeOf bv.size = i / superblockSizeOf bv.size := by
    apply Nat.le_antisymm
    · exact Nat.div_le_div_right (Nat.div_mul_le_self i _)
    · exact le_mul_div hs_pos hks_le_jb
  rw [hjbs]
  have hm1 : countOnes bv.get
      (i / superblockSizeOf bv.size * superblockSizeOf bv.size) ≤
      countOnes bv.get (i / blockSizeOf bv.size * blockSizeOf bv.size) :=
    countOnes_mono _ hks_le_jb
  have hm2 : countOnes bv.get (i / blockSizeOf bv.size * blockSizeOf bv.size) ≤
      countOnes bv.get (i + 1) := countOnes_mono _ (by omega)
  rw [hcongr]
  omega

theorem exists_select_pos (f : Nat → Bool) :
    ∀ (n i : Nat), 1 ≤ i → i ≤ countOnes f n →
      ∃ p, p < n ∧ countOnes f (p + 1) = i ∧ f p = true
  | 0, i, h1, h2 => by
      simp only [countOnes] at h2
      omega
  | n + 1, i, h1, h2 => by
      rcases Nat.lt_or_ge (countOnes f n) i with h | h
      · have hsucc : countOnes f (n + 1) = countOnes f n + (if f n then 1 else 0) := rfl
        have hfn : f n = true := by
          by_contra hf
          rw [Bool.not_eq_true] at hf
          rw [hf] at hsucc
          simp at hsucc
          omega
        refine ⟨n, by omega, ?_, hfn⟩
        rw [hfn] at hsucc
        simp at hsucc
        omega
      · obtain ⟨p, hp1, hp2, hp3⟩ := exists_select_pos f n i h1 h
        exact ⟨p, by omega, hp2, hp3⟩

theorem orshift_spread (w d a : Nat)
    (hw : ∀ t, a ≤ t → t ≤ 31 → w.testBit t = true) (had : a + d ≤ 32) :
    ∀ t, a - d ≤ t → t ≤ 31 → (w ||| w >>> d).testBit t = true := by
  intro t h1 h2
  rw [Nat.testBit_or, Nat.testBit_shiftRight]
  by_cases hta : a ≤ t
  · rw [hw t hta h2]
    simp
  · push_neg at hta
    rw [hw (d + t) (by omega) (by omega)]
    simp

theorem or_lt_232 {x y : Nat} (hx : x < 4294967296) (hy : y < 4294967296) :
    x ||| y < 4294967296 := by
  have h32 : (2 : Nat) ^ 32 = 4294967296 := by norm_num
  have h := @Nat.or_lt_two_pow x y 32 (by omega) (by omega)
  omega

theorem shiftRight_le_self (x d : Nat) : x >>> d ≤ x := by
  rw [Nat.shiftRight_eq_div_pow]
  exact Nat.div_le_self _ _

theorem orshift_lt (w : Nat) (d : Nat) (hw : w < 4294967296) :
    w ||| w >>> d < 4294967296 :=
  or_lt_232 hw (Nat.lt_of_le_of_lt (shiftRight_le_self w d) hw)

theorem eq_top_of_testBit (z : Nat) (hlt : z < 4294967296)
    (hbits : ∀ t, t ≤ 31 → z.testBit t = true) : z = 4294967295 := by
  have h32 : (2 : Nat) ^ 32 = 4294967296 := by norm_num
  apply Nat.eq_of_testBit_eq
  intro t
  by_cases ht : t ≤ 31
  · rw [hbits t ht, show (4294967295 : Nat) = 2 ^ 32 - 1 by norm_num,
      Nat.testBit_two_pow_sub_one]
    simp
    omega
  · rw [Nat.testBit_lt_two_pow (by
        calc z < 4294967296 := hlt
          _ = 2 ^ 32 := h32.symm
          _ ≤ 2 ^ t := Nat.pow_le_pow_right (by norm_num) (by omega)),
      show (4294967295 : Nat) = 2 ^ 32 - 1 by norm_num,
      Nat.testBit_two_pow_sub_one]
    simp
    omega

/-- The or-shift cascade of roundUpToPowerOf2 saturates: if the decremented
32-bit input has its top (31st) bit set, every lower bit gets set too, the
final increment wraps around, and the computed power of two is 0. -/
theorem roundUpToPowerOf2_eq_zero_of_big (num : Nat)
    (h1 : 2147483649 ≤ u32 num) : roundUpToPowerOf2 num = 0 := by
  have hx0lt : (u32 num + 4294967295) % 4294967296 < 4294967296 :=
    Nat.mod_lt _ (by norm_num)
  have hx0ge : 2147483648 ≤ (u32 num + 4294967295) % 4294967296 := by
    have hu := u32_lt num
    have hsh : u32 num + 4294967295 = 4294967296 + (u32 num - 1) := by omega
    rw [hsh, Nat.add_mod_left, Nat.mod_eq_of_lt (by omega)]
    omega
  set x0 := (u32 num + 4294967295) % 4294967296 with hx0
  have hbit31 : ∀ t, 31 ≤ t → t ≤ 31 → x0.testBit t = true := by
    intro t ht1 ht2
    have hteq : t = 31 := by omega
    subst hteq
    rw [Nat.testBit_to_div_mod]
    have hdiv : x0 / 2 ^ 31 = 1 := by
      have hp : (2 : Nat) ^ 31 = 2147483648 := by norm_num
      omega
    rw [hdiv]
    rfl
  have h1s := orshift_spread x0 1 31 hbit31 (by norm_num)
  have h2s := orshift_spread _ 2 30 h1s (by norm_num)
  have h4s := orshift_spread _ 4 28 h2s (by norm_num)
  have h8s := orshift_spread _ 8 24 h4s (by norm_num)
  have h16s := orshift_spread _ 16 16 h8s (by norm_num)
  have hz5lt := orshift_lt _ 16 (orshift_lt _ 8 (orshift_lt _ 4
    (orshift_lt _ 2 (orshift_lt _ 1 hx0lt))))
  have hz5eq := eq_top_of_testBit _ hz5lt (fun t ht => h16s t (by omega) ht)
  unfold roundUpToPowerOf2
  dsimp only
  rw [← hx0, hz5eq]
  rfl

theorem size_le_of_blockSize_pos {n : Nat} (hb : 0 < blockSizeOf n)
    (hn32 : n < 4294967296) : n ≤ 2147483648 := by
  by_contra hc
  push_neg at hc
  have hz : roundUpToPowerOf2 n = 0 := by
    apply roundUpToPowerOf2_eq_zero_of_big
    unfold u32
    omega
  unfold blockSizeOf at hb
  rw [hz] at hb
  simp [floorLog2, log2fuel] at hb

/-- The binary-search loop of select1 finds a position whose rank is i and
whose bit is set, given that such a position p lies inside [lower, upper],
that rank1 agrees with the naive count, and that the fuel covers the window
size.  In particular the loop terminates within the budget select1 passes. -/
theorem selectLoop_finds (rs : RankSupport) (bv : BitVector) (i p : Nat)
    (hrank : ∀ m, m < bv.size → rs.rank1 bv m = countOnes bv.get (m + 1))
    (hp_lt : p < bv.size) (hp_cnt : countOnes bv.get (p + 1) = i)
    (hp_bit : bv.get p = true) (hn31 : bv.size ≤ 2147483648) :
    ∀ (fuel lower upper : Nat), lower ≤ p → p ≤ upper → upper ≤ bv.size →
      upper + 1 - lower ≤ fuel →
      ∃ q, selectLoop rs bv i lower upper fuel = .ok q ∧
        rs.rank1 bv q = i ∧ bv.get q = true
  | 0, lower, upper, h1, h2, h3, h4 => by omega
  | fuel + 1, lower, upper, h1, h2, h3, h4 => by
    have hlu : lower ≤ upper := Nat.le_trans h1 h2
    have hsum : lower + upper < 4294967296 := by omega
    simp only [selectLoop]
    rw [if_pos hlu, u32_eq_of_lt hsum]
    have hmid_le : (lower + upper) / 2 ≤ upper := by omega
    have hmid_ge : lower ≤ (lower + upper) / 2 := by omega
    have hmid_lt : (lower + upper) / 2 < bv.size := by omega
    rw [if_neg (by omega : ¬ (lower + upper) / 2 ≥ bv.size)]
    have hrk := hrank ((lower + upper) / 2) hmid_lt
    by_cases hlt : rs.rank1 bv ((lower + upper) / 2) < i
    · rw [if_pos hlt]
      have hpm : (lower + upper) / 2 < p := by
        by_contra hcc
        push_neg at hcc
        have hmono := countOnes_mono bv.get
          (show p + 1 ≤ (lower + upper) / 2 + 1 by omega)
        omega
      rw [u32_eq_of_lt (show (lower + upper) / 2 + 1 < 4294967296 by omega)]
      exact selectLoop_finds rs bv i p hrank hp_lt hp_cnt hp_bit hn31 fuel
        ((lower + upper) / 2 + 1) upper (by omega) h2 h3 (by omega)
    · rw [if_neg hlt]
      by_cases hgt : rs.rank1 bv ((lower + upper) / 2) > i ∨
          bv.get ((lower + upper) / 2) ≠ true
      · rw [if_pos hgt]
        have hpm : p < (lower + upper) / 2 := by
          rcases hgt with hg | hbit
          · by_contra hcc
            push_neg at hcc
            have hmono := countOnes_mono bv.get
              (show (lower + upper) / 2 + 1 ≤ p + 1 by omega)
            omega
          · have hne : p ≠ (lower + upper) / 2 := by
              intro he
              rw [← he] at hbit
              exact hbit hp_bit
            by_contra hcc
            push_neg at hcc
            have hstep : countOnes bv.get (p + 1) = countOnes bv.get p + 1 := by
              show countOnes bv.get p + (if bv.get p then 1 else 0) = _
              rw [hp_bit]
              simp
            have hmono := countOnes_mono bv.get
              (show (lower + upper) / 2 + 1 ≤ p by omega)
            omega
        have hwrap : u32 ((lower + upper) / 2 + 4294967295) =
            (lower + upper) / 2 - 1 := by
          have hpos : 1 ≤ (lower + upper) / 2 := by omega
          have hsh : (lower + upper) / 2 + 4294967295 =
              4294967296 + ((lower + upper) / 2 - 1) := by omega
          unfold u32
          rw [hsh, Nat.add_mod_left, Nat.mod_eq_of_lt (by omega)]
        rw [hwrap]
        exact selectLoop_finds rs bv i p hrank hp_lt hp_cnt hp_bit hn31 fuel
          lower ((lower + upper) / 2 - 1) h1 (by omega) (by omega) (by omega)
      · rw [if_neg hgt]
        push_neg at hgt
        exact ⟨(lower + upper) / 2, rfl, by omega, hgt.2⟩

/-- Select inverts rank: on a freshly built RankSupport, select1 succeeds for
every i between 1 and totalOnes and returns a position whose rank1 is i and
whose bit is set. -/
theorem select1_mk_spec (bv : BitVector) (hwf : ∀ x ∈ bv.data, x < 256)
    (hb : 0 < blockSizeOf bv.size) (hn32 : bv.size < 4294967296)
    (i : Nat) (h1 : 1 ≤ i) (h2 : i ≤ (mkRankSupport bv).totalOnes) :
    ∃ p, select1 (mkRankSupport bv) bv i = .ok p ∧
      (mkRankSupport bv).rank1 bv p = i ∧ bv.get p = true := by
  have hn31 : bv.size ≤ 2147483648 := size_le_of_blockSize_pos hb hn32
  have htot := (mkRankSupport_tables bv hb hn32).2.2
  obtain ⟨p, hp1, hp2, hp3⟩ := exists_select_pos bv.get bv.size i h1 (by omega)
  unfold select1
  rw [if_neg (by omega : ¬ i > (mkRankSupport bv).totalOnes)]
  rw [if_neg (show ¬ (i == 0) = true by simp only [beq_iff_eq]; omega)]
  rw [u32_eq_of_lt (by omega)]
  exact selectLoop_finds (mkRankSupport bv) bv i p
    (fun m hm => rank1_mk_eq bv hwf hb hn32 m hm) hp1 hp2 hp3 hn31
    (bv.size + 2) 0 bv.size (Nat.zero_le p) (by omega) (Nat.le_refl _) (by omega)

theorem digitVal_le (c : Char) : digitVal c ≤ 1 := by
  unfold digitVal
  split <;> omega

theorem stoulBase2_reverse_cons (c : Char) (l : List Char) :
    stoulBase2 (c :: l).reverse = digitVal c + 2 * stoulBase2 l.reverse := by
  unfold stoulBase2
  rw [List.reverse_cons, List.foldl_append]
  simp
  omega

theorem stoulRev_lt : ∀ l : List Char, stoulBase2 l.reverse < 2 ^ l.length
  | [] => by simp [stoulBase2]
  | c :: l => by
      rw [stoulBase2_reverse_cons]
      have h1 := stoulRev_lt l
      have h2 := digitVal_le c
      have hp : 2 ^ (c :: l).length = 2 * 2 ^ l.length := by
        simp [List.length_cons]
        ring
      omega

theorem testBit_stoulRev : ∀ (l : List Char) (t : Nat),
    (stoulBase2 l.reverse).testBit t =
      (decide (t < l.length) && (l.getD t '0' == '1'))
  | [], t => by simp [stoulBase2]
  | c :: l, 0 => by
      rw [stoulBase2_reverse_cons, Nat.testBit_zero]
      have h2 := digitVal_le c
      have hmod : (digitVal c + 2 * stoulBase2 l.reverse) % 2 = digitVal c := by
        omega
      rw [hmod]
      simp only [List.length_cons, List.getD_cons_zero]
      unfold digitVal
      rcases hc : c == '1' <;> simp [hc]
  | c :: l, t + 1 => by
      rw [stoulBase2_reverse_cons, Nat.testBit_add_one]
      have h2 := digitVal_le c
      have hdiv : (digitVal c + 2 * stoulBase2 l.reverse) / 2 =
          stoulBase2 l.reverse := by omega
      rw [hdiv, testBit_stoulRev l t]
      simp [List.length_cons]

theorem testBit_byteOfChunk (l : List Char) (hl : l.length ≤ 8) (t : Nat) :
    (byteOfChunk l).testBit t =
      (decide (t < l.length) && (l.getD t '0' == '1')) := by
  unfold byteOfChunk
  have hlt : stoulBase2 l.reverse < 256 := by
    have h1 := stoulRev_lt l
    have h2 : (2 : Nat) ^ l.length ≤ 2 ^ 8 := Nat.pow_le_pow_right (by norm_num) hl
    norm_num at h2
    omega
  rw [Nat.mod_eq_of_lt hlt]
  exact testBit_stoulRev l t

theorem chunkBytes_eq : ∀ (s : List Char), s ≠ [] →
    chunkBytes s = byteOfChunk (s.take 8) :: chunkBytes (s.drop 8)
  | [], h => absurd rfl h
  | [_], _ => rfl
  | [_, _], _ => rfl
  | [_, _, _], _ => rfl
  | [_, _, _, _], _ => rfl
  | [_, _, _, _, _], _ => rfl
  | [_, _, _, _, _, _], _ => rfl
  | [_, _, _, _, _, _, _], _ => rfl
  | _ :: _ :: _ :: _ :: _ :: _ :: _ :: _ :: _, _ => rfl

theorem chunkBytes_getD : ∀ (j : Nat) (s : List Char),
    (chunkBytes s).getD j 0 = byteOfChunk ((s.drop (8 * j)).take 8)
  | 0, s => by
      rcases s with _ | ⟨c, s0⟩
      · rfl
      · rw [chunkBytes_eq _ (by simp)]
        simp
  | j + 1, s => by
      rcases s with _ | ⟨c, s0⟩
      · rfl
      · rw [chunkBytes_eq _ (by simp), List.getD_cons_succ,
          chunkBytes_getD j ((c :: s0).drop 8), List.drop_drop,
          show (8 : Nat) + 8 * j = 8 * (j + 1) from by omega]

/-- The observable contract of the string constructor: bit i of the built
vector is set exactly when character i of the string is '1', despite the
byte-wise reverse-and-parse construction. -/
theorem ofString_bit (s : List Char) (i : Nat) (hi : i < s.length) :
    (BitVector.ofString s).get i = (s.getD i '0' == '1') := by
  show bitOf (chunkBytes s) i = _
  unfold bitOf
  rw [shiftRight3_eq, and7_eq, chunkBytes_getD (i / 8) s,
    testBit_byteOfChunk _ (by
      have hlt : ((s.drop (8 * (i / 8))).take 8).length =
          min 8 (s.drop (8 * (i / 8))).length := by simp
      omega)]
  have hdm := Nat.div_add_mod i 8
  have hlen : ((s.drop (8 * (i / 8))).take 8).length =
      min 8 (s.length - 8 * (i / 8)) := by
    simp
  have hin : i % 8 < ((s.drop (8 * (i / 8))).take 8).length := by
    omega
  rw [decide_eq_true hin, Bool.true_and]
  have hgd : ((s.drop (8 * (i / 8))).take 8).getD (i % 8) '0' = s.getD i '0' := by
    rw [List.getD_eq_getElem?_getD, List.getElem?_take_of_lt (by omega),
      List.getElem?_drop, show 8 * (i / 8) + i % 8 = i from by omega,
      List.getD_eq_getElem?_getD]
  rw [hgd]

theorem testBit_setByteBit (byte bi : Nat) (v : Bool) (hbi : bi < 8)
    (t : Nat) (ht : t < 8) :
    (setByteBit byte bi v).testBit t = if t = bi then v else byte.testBit t := by
  unfold setByteBit
  rw [show (256 : Nat) = 2 ^ 8 by norm_num, Nat.testBit_mod_two_pow]
  have hsh : (1 : Nat) <<< bi = 2 ^ bi := by rw [Nat.shiftLeft_eq, Nat.one_mul]
  have hmask_eq : 4294967295 - (1 <<< bi) = 4294967295 ^^^ 2 ^ bi := by
    rw [hsh]
    interval_cases bi <;> decide
  rw [hmask_eq, Nat.testBit_or, Nat.testBit_and, Nat.testBit_xor]
  have hv : ((if v then 1 else 0) <<< bi).testBit t = (v && decide (t = bi)) := by
    rcases v with _ | _
    · simp
    · rw [if_pos rfl, hsh, Nat.testBit_two_pow]
      simp [eq_comm]
  rw [hv, show (4294967295 : Nat) = 2 ^ 32 - 1 by norm_num,
    Nat.testBit_two_pow_sub_one, Nat.testBit_two_pow]
  by_cases hteq : t = bi
  · subst hteq
    simp [ht, show t < 32 by omega]
  · simp [hteq, ht, show t < 32 by omega]
    intro _
    omega

/-- BitVector::set on an in-range index preserves the byte-buffer invariant:
the length, the byte bound, and the vanishing of every bit at or beyond
size. -/
theorem set_preserves_inv (bv : BitVector) (pos : Nat) (v : Bool)
    (hpos : pos < bv.size) (hn32 : bv.size < 4294967296)
    (h1 : bv.data.length = roundDivisionUp bv.size 8)
    (h2 : ∀ x ∈ bv.data, x < 256)
    (h3 : ∀ i, bv.size ≤ i → bitOf bv.data i = false) :
    (bv.set pos v).size = bv.size ∧
    (bv.set pos v).data.length = roundDivisionUp bv.size 8 ∧
    (∀ x ∈ (bv.set pos v).data, x < 256) ∧
    (∀ i, bv.size ≤ i → bitOf (bv.set pos v).data i = false) := by
  refine ⟨rfl, ?_, ?_, ?_⟩
  · show (bv.data.set _ _).length = _
    rw [List.length_set]
    exact h1
  · intro x hx
    rcases List.mem_or_eq_of_mem_set hx with h | h
    · exact h2 x h
    · rw [h]
      exact Nat.mod_lt _ (by norm_num)
  · intro i hi
    show Nat.testBit ((bv.data.set (pos >>> 3) _).getD (i >>> 3) 0) (i &&& 7) = false
    by_cases hbyte : pos >>> 3 = i >>> 3
    · rw [← hbyte]
      have hlen : pos >>> 3 < bv.data.length := by
        rw [h1, shiftRight3_eq]
        apply lt_roundDivisionUp (by norm_num) hn32 (by norm_num)
        have hq := Nat.div_mul_le_self pos 8
        omega
      rw [getD_set_self _ _ _ hlen,
        testBit_setByteBit _ _ _ (by rw [and7_eq]; omega) _ (by rw [and7_eq]; omega)]
      rw [if_neg (by
        rw [and7_eq, and7_eq]
        rw [shiftRight3_eq, shiftRight3_eq] at hbyte
        have hd1 := Nat.div_add_mod i 8
        have hd2 := Nat.div_add_mod pos 8
        omega)]
      have hold := h3 i hi
      unfold bitOf at hold
      rw [← hbyte] at hold
      exact hold
    · rw [getD_set_ne _ _ _ _ hbyte]
      have hold := h3 i hi
      unfold bitOf at hold
      exact hold

theorem ofSize_inv (n : Nat) :
    (BitVector.ofSize n).size = n ∧
    (BitVector.ofSize n).data.length = roundDivisionUp n 8 ∧
    (∀ x ∈ (BitVector.ofSize n).data, x < 256) ∧
    (∀ i, n ≤ i → bitOf (BitVector.ofSize n).data i = false) := by
  refine ⟨rfl, List.length_replicate _ _, ?_, ?_⟩
  · intro x hx
    rw [List.eq_of_mem_replicate hx]
    norm_num
  · intro i _
    unfold bitOf
    show Nat.testBit ((List.replicate _ 0).getD _ 0) _ = false
    rw [getD_replicate_zero]
    exact Nat.zero_testBit _

theorem chunkBytes_length : ∀ s : List Char,
    (chunkBytes s).length = (s.length + 7) / 8
  | [] => rfl
  | [_] => by simp [chunkBytes]
  | [_, _] => by simp [chunkBytes]
  | [_, _, _] => by simp [chunkBytes]
  | [_, _, _, _] => by simp [chunkBytes]
  | [_, _, _, _, _] => by simp [chunkBytes]
  | [_, _, _, _, _, _] => by simp [chunkBytes]
  | [_, _, _, _, _, _, _] => by simp [chunkBytes]
  | c0 :: c1 :: c2 :: c3 :: c4 :: c5 :: c6 :: c7 :: rest => by
      show (chunkBytes rest).length + 1 = _
      rw [chunkBytes_length rest]
      show _ = (rest.length + 8 + 7) / 8
      omega

theorem chunkBytes_bytes_lt (s : List Char) : ∀ x ∈ chunkBytes s, x < 256 := by
  intro x hx
  obtain ⟨j, hj, hget⟩ := List.getElem_of_mem hx
  have hx_eq : x = (chunkBytes s).getD j 0 := by
    rw [List.getD_eq_getElem?_getD, List.getElem?_eq_getElem hj, hget]
    rfl
  rw [hx_eq, chunkBytes_getD]
  exact Nat.mod_lt _ (by norm_num)

theorem ofString_inv (s : List Char) (hn32 : s.length < 4294967296) :
    (BitVector.ofString s).size = s.length ∧
    (BitVector.ofString s).data.length = roundDivisionUp s.length 8 ∧
    (∀ x ∈ (BitVector.ofString s).data, x < 256) ∧
    (∀ i, s.length ≤ i → bitOf (BitVector.ofString s).data i = false) := by
  refine ⟨rfl, ?_, chunkBytes_bytes_lt s, ?_⟩
  · show (chunkBytes s).length = _
    rw [chunkBytes_length, roundDivisionUp_eq hn32 (by norm_num)]
    by_cases h8 : s.length % 8 = 0 <;> simp [h8] <;> omega
  · intro i hi
    unfold bitOf
    show Nat.testBit ((chunkBytes s).getD (i >>> 3) 0) _ = false
    rw [shiftRight3_eq, and7_eq, chunkBytes_getD,
      testBit_byteOfChunk _ (by
        have hlt : ((s.drop (8 * (i / 8))).take 8).length =
            min 8 (s.drop (8 * (i / 8))).length := by simp
        omega)]
    have hlen : ((s.drop (8 * (i / 8))).take 8).length =
        min 8 (s.length - 8 * (i / 8)) := by simp
    have hd := Nat.div_add_mod i 8
    rw [decide_eq_false (by omega), Bool.false_and]

theorem foldl_popcnt : ∀ (data : List Nat) (acc : Nat), (∀ x ∈ data, x < 256) →
    data.foldl (fun a byte => a + popcnt byte) acc =
      acc + countOnes (bitOf data) (8 * data.length)
  | [], acc, _ => by simp [countOnes]
  | b :: rest, acc, hwf => by
      show List.foldl _ (acc + popcnt b) rest = _
      rw [foldl_popcnt rest (acc + popcnt b) (fun x hx => hwf x (by simp [hx]))]
      have hb : b < 256 := hwf b (by simp)
      have hpb : popcnt b = countOnes (fun t => b.testBit t) 8 :=
        popcnt_eq_countOnes_testBit 8 b (by norm_num; omega)
      have hsplit := countOnes_split (bitOf (b :: rest)) 8 (8 * rest.length)
      have hlen : 8 * (b :: rest).length = 8 + 8 * rest.length := by
        simp [List.length_cons]
        ring
      have hhead : countOnes (bitOf (b :: rest)) 8 =
          countOnes (fun t => b.testBit t) 8 := by
        apply countOnes_congr
        intro t ht
        unfold bitOf
        rw [shiftRight3_eq, and7_eq,
          Nat.div_eq_of_lt (by omega), Nat.mod_eq_of_lt (by omega)]
        rfl
      have htailc : countOnes (fun u => bitOf (b :: rest) (8 + u)) (8 * rest.length) =
          countOnes (bitOf rest) (8 * rest.length) := by
        apply countOnes_congr
        intro t ht
        unfold bitOf
        rw [shiftRight3_eq, shiftRight3_eq, and7_eq, and7_eq,
          show (8 + t) / 8 = t / 8 + 1 from by omega,
          show (8 + t) % 8 = t % 8 from by omega]
        rfl
      rw [hlen, hsplit, hhead, htailc, hpb]
      omega

/-- BitVector::popcount equals the number of set bits among positions
0..size-1 whenever the buffer invariant holds (exact length, bytes, and a
zero tail). -/
theorem popcount_eq_countOnes (bv : BitVector) (hn32 : bv.size < 4294967296)
    (h1 : bv.data.length = roundDivisionUp bv.size 8)
    (h2 : ∀ x ∈ bv.data, x < 256)
    (h3 : ∀ i, bv.size ≤ i → bitOf bv.data i = false) :
    bv.popcount = countOnes bv.get bv.size := by
  unfold BitVector.popcount
  rw [← h1, List.take_length, foldl_popcnt bv.data 0 h2, Nat.zero_add]
  have hsize_le : bv.size ≤ 8 * bv.data.length := by
    rw [h1]
    have := le_mul_roundDivisionUp (show 0 < 8 by norm_num) hn32 (by norm_num)
    omega
  have hsplit := countOnes_split (bitOf bv.data) bv.size (8 * bv.data.length - bv.size)
  rw [show bv.size + (8 * bv.data.length - bv.size) = 8 * bv.data.length from by omega]
    at hsplit
  have hz : countOnes (fun u => bitOf bv.data (bv.size + u))
      (8 * bv.data.length - bv.size) = 0 := by
    rw [countOnes_congr _ (fun t _ => h3 (bv.size + t) (by omega)), countOnes_false]
  rw [hsplit, hz]
  rfl

/-- A sequence of in-range set operations preserves the buffer invariant. -/
theorem applySets_inv : ∀ (ops : List (Nat × Bool)) (bv : BitVector),
    bv.size < 4294967296 →
    bv.data.length = roundDivisionUp bv.size 8 →
    (∀ x ∈ bv.data, x < 256) →
    (∀ i, bv.size ≤ i → bitOf bv.data i = false) →
    (∀ p ∈ ops, p.1 < bv.size) →
    (applySets bv ops).size = bv.size ∧
    (applySets bv ops).data.length = roundDivisionUp bv.size 8 ∧
    (∀ x ∈ (applySets bv ops).data, x < 256) ∧
    (∀ i, bv.size ≤ i → bitOf (applySets bv ops).data i = false)
  | [], bv, _, h1, h2, h3, _ => ⟨rfl, h1, h2, h3⟩
  | op :: rest, bv, hn32, h1, h2, h3, hops => by
      obtain ⟨g0, g1, g2, g3⟩ := set_preserves_inv bv op.1 op.2
        (hops op (by simp)) hn32 h1 h2 h3
      have hrec := applySets_inv rest (bv.set op.1 op.2) (by rw [g0]; exact hn32)
        (by rw [g0]; exact g1) g2 (by rw [g0]; exact g3)
        (fun p hp => by rw [g0]; exact hops p (by simp [hp]))
      show (applySets (bv.set op.1 op.2) rest).size = bv.size ∧ _
      rw [g0] at hrec
      exact hrec

theorem writeVec_eq : ∀ (vec out : List Nat),
    writeVec out vec = out ++ (vec.map le32).flatten
  | [], out => by simp [writeVec]
  | v :: rest, out => by
      show writeVec (out ++ le32 v) rest = _
      rw [writeVec_eq rest (out ++ le32 v)]
      simp

/-- The byte stream written by RankSupport::save, spelled out: the magic, the
two sizes, the two table lengths (4 bytes each), then the raw 4-byte entries
of the superblock table followed by those of the block table. -/
theorem save_eq (rs : RankSupport) :
    rs.save = le32 4276993775 ++ le32 rs.superblockSize ++ le32 rs.blockSize ++
      le32 (u32 rs.superblocks.length) ++ le32 (u32 rs.blocks.length) ++
      (rs.superblocks.map le32).flatten ++ (rs.blocks.map le32).flatten := by
  show writeVec (writeVec _ rs.superblocks) rs.blocks = _
  rw [writeVec_eq, writeVec_eq]
  simp

theorem read32_le32 (v : Nat) (rest : List Nat) :
    read32 (le32 v ++ rest) = .ok (u32 v, rest) := by
  show Except.ok (v % 256 + 256 * (v / 256 % 256) + 65536 * (v / 65536 % 256) +
      16777216 * (v / 16777216 % 256), rest) = Except.ok (u32 v, rest)
  rw [show v % 256 + 256 * (v / 256 % 256) + 65536 * (v / 65536 % 256) +
      16777216 * (v / 16777216 % 256) = u32 v from by unfold u32; omega]

theorem readEntries_flatten : ∀ (l rest : List Nat),
    readEntries l.length ((l.map le32).flatten ++ rest) = .ok (l.map u32, rest)
  | [], rest => by simp [readEntries]
  | v :: tl, rest => by
      show readEntries (tl.length + 1) ((le32 v ++ (tl.map le32).flatten) ++ rest) = _
      simp only [readEntries]
      rw [List.append_assoc, read32_le32]
      simp only [Except.bind, bind]
      rw [readEntries_flatten tl rest]
      rfl

theorem map_u32_eq : ∀ (l : List Nat), (∀ x ∈ l, x < 4294967296) → l.map u32 = l
  | [], _ => rfl
  | x :: tl, h => by
      show u32 x :: tl.map u32 = x :: tl
      rw [show u32 x = x from Nat.mod_eq_of_lt (h x (by simp)),
        map_u32_eq tl (fun x hx => h x (by simp [hx]))]

theorem bindE_ok {A B : Type} (a : A) (f : A → Except Err B) :
    bind (Except.ok a) f = f a := rfl

/-- Loading the byte stream written by save into any receiver reproduces the
saved sizes and tables exactly (the receiver's bit-vector reference and its
totalOnes field are untouched, as in the source). -/
theorem load_save (rs rs0 : RankSupport)
    (h1 : rs.superblockSize < 4294967296) (h2 : rs.blockSize < 4294967296)
    (h3 : rs.superblocks.length < 4294967296) (h4 : rs.blocks.length < 4294967296)
    (h5 : ∀ x ∈ rs.superblocks, x < 4294967296)
    (h6 : ∀ x ∈ rs.blocks, x < 4294967296) :
    rs0.load rs.save = .ok ⟨rs.superblockSize, rs.blockSize, rs.superblocks,
      rs.blocks, rs0.totalOnes⟩ := by
  rw [save_eq]
  unfold RankSupport.load
  simp only [List.append_assoc]
  rw [read32_le32, bindE_ok]
  dsimp only []
  rw [show u32 4276993775 = 4276993775 from rfl]
  rw [if_neg (not_not_intro rfl)]
  rw [read32_le32, bindE_ok]
  dsimp only []
  rw [read32_le32, bindE_ok]
  dsimp only []
  rw [read32_le32, bindE_ok]
  dsimp only []
  rw [read32_le32, bindE_ok]
  dsimp only []
  rw [show u32 (u32 rs.superblocks.length) = rs.superblocks.length from by
      unfold u32; omega]
  rw [show u32 (u32 rs.blocks.length) = rs.blocks.length from by
      unfold u32; omega]
  rw [show ((rs.blocks.map le32).flatten : List Nat) =
      (rs.blocks.map le32).flatten ++ [] from by simp]
  rw [readEntries_flatten, bindE_ok]
  dsimp only []
  rw [readEntries_flatten, bindE_ok]
  dsimp only []
  rw [map_u32_eq _ h5, map_u32_eq _ h6,
    show u32 rs.superblockSize = rs.superblockSize from Nat.mod_eq_of_lt h1,
    show u32 rs.blockSize = rs.blockSize from Nat.mod_eq_of_lt h2]

theorem flatten_le32_length : ∀ l : List Nat,
    ((l.map le32).flatten).length = 4 * l.length
  | [] => rfl
  | x :: tl => by
      show (le32 x ++ (tl.map le32).flatten).length = _
      rw [List.length_append, flatten_le32_length tl]
      show 4 + 4 * tl.length = 4 * (tl.length + 1)
      omega

theorem save_length (rs : RankSupport) :
    rs.save.length = 20 + 4 * rs.superblocks.length + 4 * rs.blocks.length := by
  rw [save_eq]
  simp only [List.length_append, flatten_le32_length]
  show 4 + 4 + 4 + 4 + 4 + _ + _ = _
  omega

theorem cov_step (x0 w c d : Nat) (hd : d ≤ c)
    (h : ∀ t, (∃ u, t ≤ u ∧ u < t + c ∧ x0.testBit u = true) → w.testBit t = true) :
    ∀ t, (∃ u, t ≤ u ∧ u < t + (c + d) ∧ x0.testBit u = true) →
      (w ||| w >>> d).testBit t = true := by
  intro t ht
  obtain ⟨u, h1, h2, h3⟩ := ht
  rw [Nat.testBit_or]
  by_cases hc : u < t + c
  · rw [h t ⟨u, h1, hc, h3⟩]
    simp
  · rw [Nat.testBit_shiftRight, h (d + t) ⟨u, by omega, by omega, h3⟩]
    simp

theorem ge_three_of_bits (z : Nat) (b0 : z.testBit 0 = true)
    (b1 : z.testBit 1 = true) : 3 ≤ z := by
  rw [Nat.testBit_to_div_mod] at b0 b1
  simp at b0 b1
  omega

theorem orshift_lt31 (w : Nat) (d : Nat) (hw : w < 2147483648) :
    w ||| w >>> d < 2147483648 := by
  have hp : (2 : Nat) ^ 31 = 2147483648 := by norm_num
  have hs := shiftRight_le_self w d
  have h := @Nat.or_lt_two_pow w (w >>> d) 31 (by omega) (by omega)
  omega

/-- For a length between 3 and 2^31 the bithack behaves: the computed next
power of two is at least 4 (so the integer log is at least 2 and both
derived sizes are nonzero). -/
theorem roundUpToPowerOf2_ge_four {n : Nat} (h3 : 3 ≤ n) (h31 : n ≤ 2147483648) :
    4 ≤ roundUpToPowerOf2 n := by
  have hu : u32 n = n := u32_eq_of_lt (by omega)
  have hx0 : (u32 n + 4294967295) % 4294967296 = n - 1 := by
    rw [hu, show n + 4294967295 = 4294967296 + (n - 1) from by omega,
      Nat.add_mod_left, Nat.mod_eq_of_lt (by omega)]
  have hsh : (n - 1) >>> 1 ≠ 0 := by
    rw [Nat.shiftRight_eq_div_pow]
    norm_num
    omega
  obtain ⟨j, hj⟩ := Nat.ne_zero_implies_bit_true hsh
  rw [Nat.testBit_shiftRight] at hj
  have hjge : 2 ^ (1 + j) ≤ n - 1 := Nat.testBit_implies_ge hj
  have hjle : 1 + j ≤ 30 := by
    by_contra hcj
    push_neg at hcj
    have hmono : (2 : Nat) ^ 31 ≤ 2 ^ (1 + j) :=
      Nat.pow_le_pow_right (by norm_num) (by omega)
    have h31p : (2 : Nat) ^ 31 = 2147483648 := by norm_num
    omega
  have h0 : ∀ t, (∃ u, t ≤ u ∧ u < t + 1 ∧ (n - 1).testBit u = true) →
      (n - 1).testBit t = true := by
    intro t ht
    obtain ⟨u, a1, a2, a3⟩ := ht
    exact (show u = t by omega) ▸ a3
  have h1c := cov_step (n - 1) (n - 1) 1 1 (Nat.le_refl 1) h0
  have h2c := cov_step (n - 1) _ 2 2 (Nat.le_refl 2) h1c
  have h4c := cov_step (n - 1) _ 4 4 (Nat.le_refl 4) h2c
  have h8c := cov_step (n - 1) _ 8 8 (Nat.le_refl 8) h4c
  have h16c := cov_step (n - 1) _ 16 16 (Nat.le_refl 16) h8c
  have hb0 := h16c 0 ⟨1 + j, by omega, by omega, hj⟩
  have hb1 := h16c 1 ⟨1 + j, by omega, by omega, hj⟩
  have hx0lt : n - 1 < 2147483648 := by omega
  have hz5lt := orshift_lt31 _ 16 (orshift_lt31 _ 8 (orshift_lt31 _ 4
    (orshift_lt31 _ 2 (orshift_lt31 _ 1 hx0lt))))
  have hz5ge := ge_three_of_bits _ hb0 hb1
  unfold roundUpToPowerOf2
  dsimp only
  rw [hx0, u32_eq_of_lt (by omega)]
  omega

theorem blockSizeOf_pos {n : Nat} (h3 : 3 ≤ n) (h31 : n ≤ 2147483648) :
    0 < blockSizeOf n := by
  have h4 := roundUpToPowerOf2_ge_four h3 h31
  have hK : 2 ≤ floorLog2 (roundUpToPowerOf2 n) :=
    floorLog2_ge (by norm_num; omega)
  unfold blockSizeOf
  omega

/-- C1: For every BitVector bv (a byte buffer, every byte < 256) whose length
fits the 32-bit table sizing (size < 2^32) and is large enough that the
derived block size is nonzero, and every index i < size, RankSupport::rank1
computed from the superblock table, the block table and the ranged popcount
equals the number of 1 bits in positions 0..i of bv, inclusive of i. -/
theorem claim_C1_rank_agrees_with_naive_count (bv : BitVector)
    (hwf : ∀ x ∈ bv.data, x < 256) (hb : 0 < blockSizeOf bv.size)
    (hn32 : bv.size < 4294967296) (i : Nat) (hi : i < bv.size) :
    (mkRankSupport bv).rank1 bv i = countOnes bv.get (i + 1) :=
  rank1_mk_eq bv hwf hb hn32 i hi

theorem claim_C1_witness :
    (mkRankSupport demo10).rank1 demo10 5 = countOnes demo10.get 6 :=
  claim_C1_rank_agrees_with_naive_count demo10 (by decide) (by decide)
    (by decide) 5 (by decide)

/-- C2: For every BitVector with a correctly built RankSupport and every i
with 1 <= i <= totalOnes, SelectSupport::select1 succeeds (so the binary
search loop terminates within the budget) and returns a position p with
rank1(p) = i whose bit is set. -/
theorem claim_C2_select_inverts_rank (bv : BitVector)
    (hwf : ∀ x ∈ bv.data, x < 256) (hb : 0 < blockSizeOf bv.size)
    (hn32 : bv.size < 4294967296) (i : Nat) (h1 : 1 ≤ i)
    (h2 : i ≤ (mkRankSupport bv).totalOnes) :
    ∃ p, select1 (mkRankSupport bv) bv i = .ok p ∧
      (mkRankSupport bv).rank1 bv p = i ∧ bv.get p = true :=
  select1_mk_spec bv hwf hb hn32 i h1 h2

theorem claim_C2_witness :
    ∃ p, select1 (mkRankSupport demo10) demo10 2 = .ok p ∧
      (mkRankSupport demo10).rank1 demo10 p = 2 ∧ demo10.get p = true :=
  claim_C2_select_inverts_rank demo10 (by decide) (by decide) (by decide) 2
    (by decide) (by decide)

/-- C3: After SparseArray of string create(10) followed by append(foo, 1),
append(bar, 5), append(baz, 9) in that order: getAtRank(1) yields bar;
getAtIndex(3) reports absent; getAtIndex(5) yields bar; size() = 10;
numElem() = 3; numElemAt(5) = 2; numElemAt(6) = 2. -/
theorem claim_C3_sparse_scenario :
    demoSA.map (fun sa => (sa.getAtRank 1, sa.getAtIndex 3, sa.getAtIndex 5,
        sa.size, sa.numElem, sa.numElemAt 5, sa.numElemAt 6)) =
      .ok (some (r"bar"), .ok none, .ok (some (r"bar")), 10, 3, .ok 2, .ok 2) := by
  decide

/-- C4: Saving a RankSupport and loading the resulting byte stream (into any
receiver) reconstructs a RankSupport whose rank1 agrees with the original on
every index of the underlying bit vector, provided the saved fields fit the
32-bit on-disk representation. -/
theorem claim_C4_save_load_round_trip (rs rs0 : RankSupport)
    (h1 : rs.superblockSize < 4294967296) (h2 : rs.blockSize < 4294967296)
    (h3 : rs.superblocks.length < 4294967296) (h4 : rs.blocks.length < 4294967296)
    (h5 : ∀ x ∈ rs.superblocks, x < 4294967296)
    (h6 : ∀ x ∈ rs.blocks, x < 4294967296) :
    ∃ rsL, rs0.load rs.save = .ok rsL ∧
      ∀ (bv : BitVector) (i : Nat), i < bv.size → rsL.rank1 bv i = rs.rank1 bv i :=
  ⟨_, load_save rs rs0 h1 h2 h3 h4 h5 h6, fun _ _ _ => rfl⟩

theorem claim_C4_witness :
    ∃ rsL, (mkRankSupport (BitVector.ofSize 4)).load (mkRankSupport demo10).save =
        .ok rsL ∧
      ∀ (bv : BitVector) (i : Nat), i < bv.size →
        rsL.rank1 bv i = (mkRankSupport demo10).rank1 bv i :=
  claim_C4_save_load_round_trip (mkRankSupport demo10)
    (mkRankSupport (BitVector.ofSize 4)) (by decide) (by decide) (by decide)
    (by decide) (by decide) (by decide)

/-- C5 counterexample: on the concrete 10-bit vector, the byte stream written
by RankSupport::save differs from the layout the specification describes
(8-byte container length prefixes in front of each table): the code writes
both table lengths as 4-byte values in the header instead. -/
theorem claim_C5_counterexample :
    (mkRankSupport demo10).save ≠ specSaveBytes (mkRankSupport demo10) := by
  decide

/-- C5 (amended): the byte sequence produced by RankSupport::save is exactly
the 4-byte magic 0xFEEDBEEF, the 4-byte superblockSize, the 4-byte blockSize,
the 4-byte superblock-table length, the 4-byte block-table length, then the
superblock entries (4 bytes each) followed by the block entries (4 bytes
each); in particular its total length is 20 + 4*L1 + 4*L2. -/
theorem claim_C5_save_format (rs : RankSupport) :
    rs.save = le32 4276993775 ++ le32 rs.superblockSize ++ le32 rs.blockSize ++
      le32 (u32 rs.superblocks.length) ++ le32 (u32 rs.blocks.length) ++
      (rs.superblocks.map le32).flatten ++ (rs.blocks.map le32).flatten ∧
    rs.save.length = 20 + 4 * rs.superblocks.length + 4 * rs.blocks.length :=
  ⟨save_eq rs, save_length rs⟩

/-- C6 counterexample: for the bit-vector length 2 the constructor's formulas
yield superblockSize = 0 and blockSize = 0 and no clamping to 1 takes place,
contradicting the claim that the derived sizes are nonzero for every
length. -/
theorem claim_C6_counterexample :
    superblockSizeOf 2 = 0 ∧ blockSizeOf 2 = 0 := by
  decide

/-- C6 (amended): for every bit-vector length n with 3 <= n <= 2^31 the
derived superblock and block sizes are both nonzero; for smaller lengths the
formulas yield zero and the implementation performs no clamping, so the
subsequent table sizing divides by zero. -/
theorem claim_C6_sizes_nonzero (n : Nat) (h3 : 3 ≤ n) (h31 : n ≤ 2147483648) :
    0 < superblockSizeOf n ∧ 0 < blockSizeOf n := by
  have hb := blockSizeOf_pos h3 h31
  exact ⟨(blockSize_pos_facts n hb).1, hb⟩

theorem claim_C6_witness :
    0 < superblockSizeOf 10 ∧ 0 < blockSizeOf 10 :=
  claim_C6_sizes_nonzero 10 (by decide) (by decide)

/-- C7: with bounds checking enabled, SparseArray::append raises OutOfRange
when pos is at or beyond size (the at() check fires first), raises
InvalidArgument when the bit at pos is already set, and otherwise appends the
value, sets bit pos, and rebuilds the rank tables from pos onward. -/
theorem claim_C7_append_checks (V : Type) (sa : SparseArray V) (v : V) (pos : Nat) :
    (pos ≥ sa.bitvector.size → sa.append v pos = .error .outOfRange) ∧
    (pos < sa.bitvector.size → sa.bitvector.get pos = true →
      sa.append v pos = .error .invalidArgument) ∧
    (pos < sa.bitvector.size → sa.bitvector.get pos = false →
      sa.append v pos = .ok ⟨sa.bitvector.set pos true,
        sa.rank.buildTables (sa.bitvector.set pos true) pos,
        sa.values ++ [v]⟩) := by
  refine ⟨?_, ?_, ?_⟩
  · intro h
    simp [SparseArray.append, SparseArray.appendSt, h]
  · intro h1 h2
    simp [SparseArray.append, SparseArray.appendSt, show ¬ pos ≥ sa.bitvector.size
      from by omega, h2]
  · intro h1 h2
    simp [SparseArray.append, SparseArray.appendSt, show ¬ pos ≥ sa.bitvector.size
      from by omega, h2]

theorem claim_C7_witness :
    (SparseArray.create Nat 10).append 7 20 = .error .outOfRange :=
  (claim_C7_append_checks Nat (SparseArray.create Nat 10) 7 20).1 (by decide)

/-- C8: for every binary character string s and every i < length s, the
BitVector built by the string constructor satisfies bit(i) iff the i-th
character is 1, despite the byte-wise reverse-and-parse construction. -/
theorem claim_C8_string_constructor (s : List Char)
    (hbin : ∀ c ∈ s, c = '0' ∨ c = '1') (i : Nat) (hi : i < s.length) :
    (BitVector.ofString s).get i = (s.getD i '0' == '1') :=
  ofString_bit s i hi

theorem claim_C8_witness :
    (BitVector.ofString ['1', '0', '1']).get 2 =
      (['1', '0', '1'].getD 2 '0' == '1') :=
  claim_C8_string_constructor ['1', '0', '1'] (by decide) 2 (by decide)

/-- C9: for every BitVector constructed with the size constructor or the
string constructor and mutated only through in-range set operations, the bits
beyond size in the tail byte stay zero, so popcount() over the whole byte
buffer equals the number of set bits among positions 0..size-1. -/
theorem claim_C9_popcount_invariant (n : Nat) (s : List Char) (bv0 : BitVector)
    (hinit : bv0 = BitVector.ofSize n ∨ bv0 = BitVector.ofString s)
    (hn32 : bv0.size < 4294967296)
    (ops : List (Nat × Bool)) (hops : ∀ p ∈ ops, p.1 < bv0.size) :
    (applySets bv0 ops).popcount =
      countOnes (applySets bv0 ops).get (applySets bv0 ops).size := by
  have hinv : bv0.data.length = roundDivisionUp bv0.size 8 ∧
      (∀ x ∈ bv0.data, x < 256) ∧
      (∀ i, bv0.size ≤ i → bitOf bv0.data i = false) := by
    rcases hinit with h | h
    · subst h
      obtain ⟨_, i1, i2, i3⟩ := ofSize_inv n
      exact ⟨i1, i2, i3⟩
    · subst h
      obtain ⟨hsz, i1, i2, i3⟩ := ofString_inv s (by simpa using hn32)
      exact ⟨i1, i2, i3⟩
  obtain ⟨g0, g1, g2, g3⟩ := applySets_inv ops bv0 hn32 hinv.1 hinv.2.1
    hinv.2.2 hops
  have hcnt := popcount_eq_countOnes (applySets bv0 ops)
    (by rw [g0]; exact hn32) (by rw [g0]; exact g1) g2 (by rw [g0]; exact g3)
  exact hcnt

theorem claim_C9_witness :
    (applySets (BitVector.ofString ['1', '0', '1']) [(1, true)]).popcount =
      countOnes (applySets (BitVector.ofString ['1', '0', '1']) [(1, true)]).get
        (applySets (BitVector.ofString ['1', '0', '1']) [(1, true)]).size :=
  claim_C9_popcount_invariant 0 ['1', '0', '1'] (BitVector.ofString ['1', '0', '1'])
    (Or.inr rfl) (by decide) [(1, true)] (by decide)

/-- C10: with bounds checking enabled, if SparseArray::append raises (either
on a duplicate position or on an out-of-range position), the SparseArray is
left exactly as before the call: both failing checks run before any
mutation. -/
theorem claim_C10_append_exception_safety (V : Type) (sa : SparseArray V)
    (v : V) (pos : Nat) (e : Err) (h : (sa.appendSt v pos).2 = some e) :
    (sa.appendSt v pos).1 = sa := by
  unfold SparseArray.appendSt at h ⊢
  by_cases h1 : pos ≥ sa.bitvector.size
  · simp [h1]
  · by_cases h2 : sa.bitvector.get pos
    · simp [h1, h2]
    · simp [h1, h2] at h

theorem claim_C10_witness :
    ((SparseArray.create Nat 10).appendSt 7 20).1 = SparseArray.create Nat 10 :=
  claim_C10_append_exception_safety Nat (SparseArray.create Nat 10) 7 20
    .outOfRange (by decide)

end BitLib
